import Mathlib

/-!
Verification development for the character-reference dependency resolver of
the recursive image generator (src/automation/recursive-image-generator.js).

The JavaScript code is shallowly embedded as follows:
  a chapter section object becomes the structure RSection;
  the process-scoped registry this.generatedImages becomes an association
  list Registry, where assignment overwrites an existing key in place and
  otherwise appends, exactly as a JS object keyed by strings behaves for
  the accesses the generator performs;
  parseReference models the regex match against the reference syntax;
  resolveReferences, buildDependencyOrder, generateImage and processChapter
  are translated statement by statement, with the external image synthesis
  services and the file system abstracted into boolean oracles (GenEnv),
  and exceptions modelled with Except.
The unbounded JS recursion of buildDependencyOrder.visit is given a fuel
parameter; a theorem below shows the fuel bound used by the model is never
exhausted, so the fuel is invisible in all behaviour.
-/

namespace RecGen

/-- A chapter section as consumed by the generator.  Optional string fields
model JS fields that are either absent or hold a (non-empty) string; the
`use_characters` field models a JS array field that may be absent, and is
truthy even when the array is empty. -/
structure RSection where
  id : String
  image : String
  referenceImage : Option String
  use_character : Option String
  use_characters : Option (List String)
  generate_character : Bool
deriving DecidableEq, Repr

/-- The in-memory registry mapping section id to produced artifact path,
modelling the JS object this.generatedImages (and this.characters). -/
abbrev Registry : Type := List (String × String)

/-- Reading a key from the registry, as in generatedImages[refId]. -/
def Registry.get (r : Registry) (k : String) : Option String :=
  (List.find? (fun p => p.1 == k) r).map (fun p => p.2)

/-- Writing a key, as in generatedImages[id] = path: a JS property
assignment replaces the value of an existing key and otherwise adds the
key at the end of the enumeration order. -/
def Registry.set (r : Registry) (k v : String) : Registry :=
  if List.any r (fun p => p.1 == k) then
    List.map (fun p => if p.1 == k then (k, v) else p) r
  else
    List.append r [(k, v)]

/-- The keys of the registry in enumeration order. -/
def Registry.keys (r : Registry) : List String :=
  List.map Prod.fst r

/-- One position of the regex match: the pattern backslash-dollar,
backslash-open-brace, a non-empty dot-free capture group, then the literal
characters dot i m a g e close-brace.  The greedy capture group of the
source regex can only end at the first dot, so the match at a position is
deterministic. -/
def refMatchAt : List Char → Option String
  | '$' :: '{' :: rest =>
    let idc := rest.takeWhile (fun c => c ≠ '.')
    let after := rest.dropWhile (fun c => c ≠ '.')
    if idc.isEmpty then none
    else
      match after with
      | '.' :: 'i' :: 'm' :: 'a' :: 'g' :: 'e' :: '}' :: _ => some (String.mk idc)
      | _ => none
  | _ => none

/-- Leftmost regex match over the whole string, as String.prototype.match
behaves for an unanchored pattern. -/
def parseRefList : List Char → Option String
  | [] => none
  | c :: rest =>
    match refMatchAt (c :: rest) with
    | some i => some i
    | none => parseRefList rest

/-- Faithful model of parseReference: extract the section id from the
reference syntax, or null when the string does not match. -/
def parseReference (s : String) : Option String :=
  parseRefList s.toList

/-- A resolved section: the shallow copy of the input section produced by
resolveReferences, together with the resolution metadata fields the
function may attach.  A `none` field models an absent JS property. -/
structure ResolvedSection where
  base : RSection
  characterId : Option String
  characterReference : Option String
  missingCharacterRef : Option String
  characterReferences : Option (List (String × String))
  missingCharacterRefs : Option (List String)
deriving DecidableEq, Repr

/-- The shallow copy spread of a plain section: all resolution fields
absent, as on a section freshly loaded from YAML. -/
def plainResolved (s : RSection) : ResolvedSection :=
  ⟨s, none, none, none, none, none⟩

/-- The body shared by the referenceImage and use_character branches of
resolveReferences: parse the reference, record the wanted character id,
then attach either the registered path or a missing-reference marker.
Field assignments overwrite, matching the sequential JS assignments. -/
def resolveSingle (reg : Registry) (refStr : Option String) (r : ResolvedSection) :
    ResolvedSection :=
  match refStr with
  | none => r
  | some str =>
    match parseReference str with
    | none => r
    | some refId =>
      match Registry.get reg refId with
      | some p => { r with characterId := some refId, characterReference := some p }
      | none => { r with characterId := some refId, missingCharacterRef := some refId }

/-- One iteration of the use_characters loop of resolveReferences: a
parsed reference is pushed onto the available list or the missing list; an
unparseable entry contributes to neither. -/
def resolveMultiStep (reg : Registry)
    (acc : List (String × String) × List String) (ref : String) :
    List (String × String) × List String :=
  match parseReference ref with
  | none => acc
  | some refId =>
    match Registry.get reg refId with
    | some p => (acc.1 ++ [(refId, p)], acc.2)
    | none => (acc.1, acc.2 ++ [refId])

/-- The use_characters loop of resolveReferences. -/
def resolveMulti (reg : Registry) (refs : List String) :
    List (String × String) × List String :=
  refs.foldl (resolveMultiStep reg) ([], [])

/-- The resolve computation on the contents of an arbitrary input object:
the spread copies every field of the input, after which the branches of
resolveReferences assign resolution fields on the copy. -/
def resolveObj (reg : Registry) (obj : ResolvedSection) : ResolvedSection :=
  let r1 := resolveSingle reg obj.base.referenceImage obj
  let r2 := resolveSingle reg obj.base.use_character r1
  match obj.base.use_characters with
  | none => r2
  | some refs =>
    let m := resolveMulti reg refs
    { r2 with characterReferences := some m.1, missingCharacterRefs := some m.2 }

/-- Faithful model of resolveReferences(section, allSections) on a plain
section as loaded from YAML.  The second parameter is unused, exactly as
in the source. -/
def resolveReferences (reg : Registry) (s : RSection) (_allSections : List RSection) :
    ResolvedSection :=
  resolveObj reg (plainResolved s)

/-- The reference strings buildDependencyOrder.visit traverses: the
use_character field, then each entry of use_characters.  Note that the
referenceImage field is NOT among them. -/
def depRefs (s : RSection) : List String :=
  (match s.use_character with | some r => [r] | none => []) ++
  (match s.use_characters with | some rs => rs | none => [])

/-- The dependency sections visit recurses into: each traversed reference
that parses and whose id is found in the section list, in traversal
order.  A reference that fails to parse or names no section contributes
nothing, exactly as in the source (if (refId) ... if (dep) visit(dep)). -/
def sectionDeps (sections : List RSection) (s : RSection) : List RSection :=
  (depRefs s).filterMap
    (fun r => (parseReference r).bind (fun i => sections.find? (fun t => t.id == i)))

/-- The mutable state of the depth-first traversal in buildDependencyOrder:
the done set, the in-progress set (most recent first) and the output
order. -/
structure DfsState where
  visited : List String
  visiting : List String
  order : List RSection
deriving DecidableEq, Repr

/-- The circular dependency error text thrown by visit. -/
def circMsg (id : String) : String :=
  "Circular dependency detected at " ++ id

/-- Marker for fuel exhaustion of the model; a theorem below shows the
fuel supplied by buildDependencyOrder never runs out, so this error is
unreachable there. -/
def fuelMsg : String := "model out of fuel"

/-- The traversal of buildDependencyOrder: process a worklist of sections
in order.  For each section: return if done; throw if in progress; else
mark in progress, recurse into its dependencies, then mark done and append
it to the order.  The fuel bounds only the depth of the recursion into
dependencies. -/
def visitAux (sections : List RSection) : Nat → List RSection → DfsState →
    Except String DfsState
  | _, [], st => .ok st
  | fuel, s :: rest, st =>
    if st.visited.contains s.id then
      visitAux sections fuel rest st
    else if st.visiting.contains s.id then
      .error (circMsg s.id)
    else
      match fuel with
      | 0 => .error fuelMsg
      | fuel2 + 1 =>
        match visitAux sections fuel2 (sectionDeps sections s)
            { st with visiting := s.id :: st.visiting } with
        | .error e => .error e
        | .ok st2 =>
          visitAux sections (fuel2 + 1) rest
            { visited := s.id :: st2.visited,
              visiting := st2.visiting.erase s.id,
              order := st2.order ++ [s] }
termination_by fuel ds _ => (fuel, ds.length)

/-- Faithful model of buildDependencyOrder: run the traversal over all
sections from the empty state and return the computed order, or propagate
the thrown error. -/
def buildDependencyOrder (sections : List RSection) : Except String (List RSection) :=
  (visitAux sections (sections.length + 1) sections ⟨[], [], []⟩).map
    (fun st => st.order)

/-- The external collaborators of generateImage, abstracted to oracles:
whether an artifact file already exists on disk at the start of the run,
and whether the external image synthesis service succeeds for a given
section id.  The services themselves are out of scope. -/
structure GenEnv where
  fileExists : String → Bool
  genSuccess : String → Bool

/-- The mutable instance state touched by generateImage: the two
registries and the set of files written during this run. -/
structure GenState where
  generatedImages : Registry
  characters : Registry
  files : List String
deriving DecidableEq, Repr

/-- The empty instance state a run starts from. -/
def GenState.init : GenState := ⟨∅, ∅, []⟩

/-- The result object generateImage returns: success with the artifact
path and the skipped flag, deferral with the missing dependency ids
(success false, needsRegeneration true), or failure. -/
inductive GenOutcome where
  | success (path : String) (skipped : Bool)
  | deferred (missing : List String)
  | failed (msg : String)
deriving DecidableEq, Repr

/-- Path concatenation as used through path.join. -/
def pathJoin (a b : String) : String := a ++ "/" ++ b

/-- The images directory of a chapter output directory. -/
def imagesDir (outputDir : String) : String :=
  pathJoin (pathJoin outputDir "assets") "images"

/-- Faithful model of generateImage(section, outputDir, forceRegenerate).
In order: defer when a character reference is missing; skip (while still
registering the artifact) when the output file exists and regeneration is
not forced; otherwise call the external service and register the artifact
on success.  Failures leave the registries untouched. -/
def generateImage (env : GenEnv) (s : ResolvedSection) (outputDir : String)
    (force : Bool) (st : GenState) : GenOutcome × GenState :=
  let outputPath := pathJoin outputDir s.base.image
  if s.missingCharacterRef.isSome ||
      (match s.missingCharacterRefs with | some l => !l.isEmpty | none => false) then
    (GenOutcome.deferred
      (match s.missingCharacterRef with
       | some m => [m]
       | none => match s.missingCharacterRefs with | some l => l | none => []),
     st)
  else if (st.files.contains outputPath || env.fileExists outputPath) && !force then
    (GenOutcome.success outputPath true,
     { st with
        generatedImages := st.generatedImages.set s.base.id outputPath,
        characters :=
          if s.base.generate_character then st.characters.set s.base.id outputPath
          else st.characters })
  else if env.genSuccess s.base.id then
    (GenOutcome.success outputPath false,
     { st with
        generatedImages := st.generatedImages.set s.base.id outputPath,
        characters :=
          if s.base.generate_character then st.characters.set s.base.id outputPath
          else st.characters,
        files := st.files ++ [outputPath] })
  else
    (GenOutcome.failed "generation failed", st)

/-- The run summary counters of processChapter. -/
structure RunResults where
  total : Nat
  success : Nat
  failed : Nat
  skipped : Nat
  regenerated : Nat
deriving DecidableEq, Repr

/-- The state threaded through the first generation pass: instance state,
counters and the needsRegeneration set in insertion order. -/
structure PassState where
  gen : GenState
  results : RunResults
  needsRegen : List String
deriving DecidableEq, Repr

/-- One iteration of the first pass of processChapter: resolve the
section against the current registry, attempt generation, then update the
counters or record the section for regeneration. -/
def pass1Step (env : GenEnv) (dir : String) (sections : List RSection)
    (st : PassState) (s : RSection) : PassState :=
  match generateImage env (resolveReferences st.gen.generatedImages s sections)
      (imagesDir dir) false st.gen with
  | (GenOutcome.success _ true, g2) =>
    { st with gen := g2, results := { st.results with skipped := st.results.skipped + 1 } }
  | (GenOutcome.success _ false, g2) =>
    { st with gen := g2, results := { st.results with success := st.results.success + 1 } }
  | (GenOutcome.deferred _, g2) =>
    { st with gen := g2, needsRegen := st.needsRegen ++ [s.id] }
  | (GenOutcome.failed _, g2) =>
    { st with gen := g2, results := { st.results with failed := st.results.failed + 1 } }

/-- The state threaded through the second pass: instance state, counters
and the ids still awaiting regeneration. -/
structure Pass2State where
  gen : GenState
  results : RunResults
  remaining : List String
deriving DecidableEq, Repr

/-- One iteration of the second pass of processChapter: look the deferred
id up in the section list, re-resolve, force regeneration, and on success
count it and drop it from the pending set.  A result that is not a
success updates nothing, in particular not the failed counter. -/
def pass2Step (env : GenEnv) (dir : String) (sections : List RSection)
    (st : Pass2State) (sid : String) : Pass2State :=
  match sections.find? (fun t => t.id == sid) with
  | none => st
  | some s =>
    match generateImage env (resolveReferences st.gen.generatedImages s sections)
        (imagesDir dir) true st.gen with
    | (GenOutcome.success _ _, g2) =>
      { gen := g2,
        results := { st.results with regenerated := st.results.regenerated + 1 },
        remaining := st.remaining.erase sid }
    | (_, g2) => { st with gen := g2 }

/-- Faithful model of processChapter(chapterData, outputDir): build the
dependency order, run the first pass over it, then run the second pass
once over the recorded needsRegeneration set.  Besides the returned
results object, the model also exposes the final instance state and the
ids still unresolved after the second pass, which the source keeps in
local state. -/
def processChapter (env : GenEnv) (sections : List RSection) (outputDir : String) :
    Except String (RunResults × GenState × List String) :=
  match buildDependencyOrder sections with
  | .error e => .error e
  | .ok ordered =>
    let init : PassState :=
      ⟨GenState.init, ⟨ordered.length, 0, 0, 0, 0⟩, []⟩
    let p1 := ordered.foldl (pass1Step env outputDir sections) init
    let p2 := p1.needsRegen.foldl (pass2Step env outputDir sections)
      ⟨p1.gen, p1.results, p1.needsRegen⟩
    .ok (p2.results, p2.gen, p2.remaining)

/-- The registry snapshots of a run, one before any section is processed
and one after each first-pass and second-pass iteration, built with the
same step functions processChapter folds with. -/
def chapterRegTrace (env : GenEnv) (sections : List RSection) (outputDir : String) :
    List Registry :=
  match buildDependencyOrder sections with
  | .error _ => []
  | .ok ordered =>
    let init : PassState :=
      ⟨GenState.init, ⟨ordered.length, 0, 0, 0, 0⟩, []⟩
    let p1states := ordered.scanl (pass1Step env outputDir sections) init
    let p1 := ordered.foldl (pass1Step env outputDir sections) init
    let p2states := p1.needsRegen.scanl (pass2Step env outputDir sections)
      ⟨p1.gen, p1.results, p1.needsRegen⟩
    p1states.map (fun st => st.gen.generatedImages) ++
      p2states.map (fun st => st.gen.generatedImages)

/-!
A heap model for the object-identity facts about resolveReferences.  A JS
object lives at an address in a heap; the spread `{...section}` in
resolveReferences allocates a fresh object, so the function reads the
input address and appends one new object, returning its address.
-/

/-- A heap of section objects, addressed by position. -/
abbrev Heap : Type := List ResolvedSection

/-- resolveReferences as a heap operation: read the section object at the
given address, allocate the resolved copy at a fresh address and return
it.  Reading a dangling address fails. -/
def resolveReferencesAlloc (reg : Registry) (h : Heap) (addr : Nat) :
    Option (Heap × Nat) :=
  match List.get? h addr with
  | none => none
  | some obj => some (List.append h [resolveObj reg obj], List.length h)

/-!
Proof layer for buildDependencyOrder: the dependency edge relation, the
invariant of the depth-first traversal, and a specification theorem for
visitAux from which the claims about ordering, cycle detection and
stability follow.
-/

/-- The ids of a list of sections, in order. -/
def secIds (sections : List RSection) : List String :=
  sections.map (fun s => s.id)

/-- The dependency edge the traversal follows: x depends on y when y is
among the dependency sections of x. -/
def DepEdge (sections : List RSection) (x y : RSection) : Prop :=
  y ∈ sectionDeps sections x

/-- The dependency edge on ids. -/
def DepEdgeId (sections : List RSection) (a b : String) : Prop :=
  ∃ x, x ∈ sections ∧ x.id = a ∧ ∃ d, d ∈ sectionDeps sections x ∧ d.id = b

/-- The invariant the traversal maintains: the done set mirrors the order,
order entries come from the input and have distinct ids, the in-progress
stack has distinct ids of input sections disjoint from the done set, every
ordered section has its dependencies ordered strictly before it, and the
in-progress stack is a chain of dependency edges from older to newer. -/
structure GoodState (sections : List RSection) (st : DfsState) : Prop where
  vis_eq : st.visited = (secIds st.order).reverse
  order_sub : ∀ x ∈ st.order, x ∈ sections
  order_nodup : (secIds st.order).Nodup
  visiting_nodup : st.visiting.Nodup
  visiting_sub : ∀ v ∈ st.visiting, v ∈ secIds sections
  disj : ∀ v ∈ st.visiting, v ∉ st.visited
  topo : ∀ x ∈ st.order, ∀ d ∈ sectionDeps sections x,
    d ∈ st.order ∧ st.order.indexOf d < st.order.indexOf x
  chain : List.Chain' (fun a b => DepEdgeId sections b a) st.visiting

/-- Precondition of one visit call: if the in-progress stack is nonempty,
its top has a dependency edge to the visited section. -/
def Linked (sections : List RSection) (st : DfsState) (s : RSection) : Prop :=
  ∀ h t, st.visiting = h :: t → DepEdgeId sections h s.id

/-- Specification of a traversal result: either it threw the circular
dependency error naming a section that lies on a dependency cycle, or it
returned a state extending the input state, with every processed section
done and every newly ordered section equal to or transitively referenced
by a processed one. -/
inductive VisitOut (sections : List RSection) (ds : List RSection) (st : DfsState) :
    Except String DfsState → Prop where
  | err : ∀ x, x ∈ sections → Relation.TransGen (DepEdge sections) x x →
      VisitOut sections ds st (.error (circMsg x.id))
  | ok : ∀ st2, GoodState sections st2 → st2.visiting = st.visiting →
      (∃ ext, st2.order = st.order ++ ext ∧
        ∀ x ∈ ext, ∃ d ∈ ds, x = d ∨ Relation.TransGen (DepEdge sections) d x) →
      (∀ d ∈ ds, d.id ∈ st2.visited) →
      (∀ v ∈ st.visited, v ∈ st2.visited) →
      VisitOut sections ds st (.ok st2)

theorem contains_iff (l : List String) (a : String) : l.contains a = true ↔ a ∈ l :=
  List.elem_iff

theorem visitAux_nil (sections : List RSection) (fuel : Nat) (st : DfsState) :
    visitAux sections fuel [] st = .ok st := by
  simp [visitAux]

theorem visitAux_cons_visited (sections : List RSection) (fuel : Nat) (s : RSection)
    (rest : List RSection) (st : DfsState) (h : s.id ∈ st.visited) :
    visitAux sections fuel (s :: rest) st = visitAux sections fuel rest st := by
  rw [visitAux.eq_def]
  simp [h]

theorem visitAux_cons_visiting (sections : List RSection) (fuel : Nat) (s : RSection)
    (rest : List RSection) (st : DfsState) (h1 : s.id ∉ st.visited)
    (h2 : s.id ∈ st.visiting) :
    visitAux sections fuel (s :: rest) st = .error (circMsg s.id) := by
  rw [visitAux.eq_def]
  cases fuel <;> simp [h1, h2]

theorem visitAux_cons_zero (sections : List RSection) (s : RSection)
    (rest : List RSection) (st : DfsState) (h1 : s.id ∉ st.visited)
    (h2 : s.id ∉ st.visiting) :
    visitAux sections 0 (s :: rest) st = .error fuelMsg := by
  rw [visitAux.eq_def]
  simp [h1, h2]

theorem visitAux_cons_succ (sections : List RSection) (n : Nat) (s : RSection)
    (rest : List RSection) (st : DfsState) (h1 : s.id ∉ st.visited)
    (h2 : s.id ∉ st.visiting) :
    visitAux sections (n + 1) (s :: rest) st =
      match visitAux sections n (sectionDeps sections s)
          { st with visiting := s.id :: st.visiting } with
      | .error e => .error e
      | .ok st2 =>
        visitAux sections (n + 1) rest
          { visited := s.id :: st2.visited,
            visiting := st2.visiting.erase s.id,
            order := st2.order ++ [s] } := by
  rw [visitAux.eq_def]
  simp [h1, h2]

theorem nodup_length_le {l l' : List String} (h : l.Nodup) (hs : ∀ a ∈ l, a ∈ l') :
    l.length ≤ l'.length := by
  classical
  calc l.length = l.toFinset.card := (List.toFinset_card_of_nodup h).symm
    _ ≤ l'.toFinset.card := Finset.card_le_card (fun a ha => by
        rw [List.mem_toFinset] at ha ⊢
        exact hs a ha)
    _ ≤ l'.length := l'.toFinset_card_le

theorem mem_secIds {sections : List RSection} {s : RSection} (h : s ∈ sections) :
    s.id ∈ secIds sections :=
  List.mem_map_of_mem _ h

theorem secIds_length (sections : List RSection) :
    (secIds sections).length = sections.length :=
  List.length_map _ _

theorem exists_of_mem_secIds {sections : List RSection} {i : String}
    (h : i ∈ secIds sections) : ∃ x, x ∈ sections ∧ x.id = i := by
  rcases List.mem_map.mp h with ⟨x, hx, hxi⟩
  exact ⟨x, hx, hxi⟩

theorem sectionDeps_subset {sections : List RSection} {s d : RSection}
    (h : d ∈ sectionDeps sections s) : d ∈ sections := by
  rcases List.mem_filterMap.mp h with ⟨r, _, heq⟩
  cases hp : parseReference r with
  | none => rw [hp] at heq; simp at heq
  | some i =>
    rw [hp] at heq
    simp only [Option.some_bind] at heq
    exact List.mem_of_find?_eq_some heq

theorem id_inj {sections : List RSection} (hnd : (secIds sections).Nodup)
    {x y : RSection} (hx : x ∈ sections) (hy : y ∈ sections) (h : x.id = y.id) :
    x = y :=
  List.inj_on_of_nodup_map hnd hx hy h

theorem depEdge_target_mem {sections : List RSection} {x y : RSection}
    (h : DepEdge sections x y) : y ∈ sections :=
  sectionDeps_subset h

theorem transGen_target_mem {sections : List RSection} {x y : RSection}
    (h : Relation.TransGen (DepEdge sections) x y) : y ∈ sections := by
  induction h with
  | single hr => exact depEdge_target_mem hr
  | tail _ hr _ => exact depEdge_target_mem hr

theorem transGen_last_edge {sections : List RSection} {d u : RSection}
    (hd : d ∈ sections) (h : Relation.TransGen (DepEdge sections) d u) :
    ∃ w, w ∈ sections ∧ DepEdge sections w u := by
  induction h with
  | single hr => exact ⟨d, hd, hr⟩
  | tail hac hr _ => exact ⟨_, transGen_target_mem hac, hr⟩

theorem chain_reach {sections : List RSection} :
    ∀ (t : List String) (hd : String),
    List.Chain' (fun a b => DepEdgeId sections b a) (hd :: t) →
    ∀ x ∈ t, Relation.TransGen (DepEdgeId sections) x hd := by
  intro t
  induction t with
  | nil =>
    intro hd _ x hx
    cases hx
  | cons v rest ih =>
    intro hd hch x hx
    have hedge : DepEdgeId sections v hd := (List.chain'_cons.mp hch).1
    have hch2 : List.Chain' (fun a b => DepEdgeId sections b a) (v :: rest) :=
      (List.chain'_cons.mp hch).2
    cases hx with
    | head => exact Relation.TransGen.single hedge
    | tail _ hx2 => exact (ih v hch2 x hx2).tail hedge

theorem transGen_id_to_sec {sections : List RSection}
    (hnd : (secIds sections).Nodup) {a b : String}
    (h : Relation.TransGen (DepEdgeId sections) a b) :
    ∀ x, x ∈ sections → x.id = a → ∀ y, y ∈ sections → y.id = b →
    Relation.TransGen (DepEdge sections) x y := by
  induction h with
  | single hr =>
    intro x hx hxa y hy hyb
    rcases hr with ⟨x2, hx2, hx2a, d, hd, hdb⟩
    have hxx : x = x2 := id_inj hnd hx hx2 (hxa.trans hx2a.symm)
    have hdy : d = y := id_inj hnd (sectionDeps_subset hd) hy (hdb.trans hyb.symm)
    exact Relation.TransGen.single (by rw [hxx]; rw [← hdy]; exact hd)
  | tail _ hr ih =>
    intro x hx hxa y hy hyb
    rcases hr with ⟨x2, hx2, hx2c, d, hd, hdb⟩
    have hdy : d = y := id_inj hnd (sectionDeps_subset hd) hy (hdb.trans hyb.symm)
    have hstep : DepEdge sections x2 y := by rw [← hdy]; exact hd
    exact (ih x hx hxa x2 hx2 hx2c).tail hstep

theorem secIds_append (l1 l2 : List RSection) :
    secIds (l1 ++ l2) = secIds l1 ++ secIds l2 :=
  List.map_append _ _ _

theorem goodState_mem_visited {sections : List RSection} {st : DfsState}
    (hg : GoodState sections st) (v : String) :
    v ∈ st.visited ↔ v ∈ secIds st.order := by
  rw [hg.vis_eq]
  exact List.mem_reverse

theorem visiting_length_le {sections : List RSection} {st : DfsState}
    (hg : GoodState sections st) : st.visiting.length ≤ sections.length := by
  have := nodup_length_le hg.visiting_nodup hg.visiting_sub
  rwa [secIds_length] at this

theorem cycle_at_revisit {sections : List RSection} (hnd : (secIds sections).Nodup)
    {st : DfsState} {s : RSection} (hg : GoodState sections st)
    (hlink : Linked sections st s) (hs : s ∈ sections) (hmem : s.id ∈ st.visiting) :
    Relation.TransGen (DepEdge sections) s s := by
  cases hv : st.visiting with
  | nil => rw [hv] at hmem; cases hmem
  | cons hd t =>
    have hedge : DepEdgeId sections hd s.id := hlink hd t hv
    have hchain := hg.chain
    rw [hv] at hchain hmem
    have hidcyc : Relation.TransGen (DepEdgeId sections) s.id s.id := by
      rcases List.mem_cons.mp hmem with heq | hmem2
      · exact Relation.TransGen.single (heq ▸ hedge)
      · exact (chain_reach t hd hchain s.id hmem2).tail hedge
    exact transGen_id_to_sec hnd hidcyc s hs rfl s hs rfl

theorem push_goodState {sections : List RSection} {st : DfsState} {s : RSection}
    (hg : GoodState sections st) (hs : s ∈ sections) (hnv : s.id ∉ st.visited)
    (hnp : s.id ∉ st.visiting) (hlink : Linked sections st s) :
    GoodState sections { st with visiting := s.id :: st.visiting } := by
  refine ⟨hg.vis_eq, hg.order_sub, hg.order_nodup, ?_, ?_, ?_, hg.topo, ?_⟩
  · exact List.nodup_cons.mpr ⟨hnp, hg.visiting_nodup⟩
  · intro v hv
    rcases List.mem_cons.mp hv with h | h
    · rw [h]; exact mem_secIds hs
    · exact hg.visiting_sub v h
  · intro v hv
    rcases List.mem_cons.mp hv with h | h
    · rw [h]; exact hnv
    · exact hg.disj v h
  · show List.Chain' (fun a b => DepEdgeId sections b a) (s.id :: st.visiting)
    cases hvv : st.visiting with
    | nil => simp
    | cons hd t =>
      refine List.chain'_cons.mpr ⟨hlink hd t hvv, ?_⟩
      rw [← hvv]
      exact hg.chain

theorem complete_goodState {sections : List RSection} (hnd : (secIds sections).Nodup)
    {st st2 : DfsState} {s : RSection}
    (hg : GoodState sections st) (hs : s ∈ sections) (hnv : s.id ∉ st.visited)
    (hnp : s.id ∉ st.visiting)
    (hg2 : GoodState sections st2)
    (hvis2 : st2.visiting = s.id :: st.visiting)
    (hdeps : ∀ d ∈ sectionDeps sections s, d.id ∈ st2.visited) :
    GoodState sections
      ⟨s.id :: st2.visited, st2.visiting.erase s.id, st2.order ++ [s]⟩ ∧
    st2.visiting.erase s.id = st.visiting := by
  have hsid_in2 : s.id ∈ st2.visiting := by rw [hvis2]; exact List.mem_cons_self _ _
  have hsid_nin2 : s.id ∉ st2.visited := hg2.disj _ hsid_in2
  have hsid_nin_ord : s.id ∉ secIds st2.order := by
    intro h
    exact hsid_nin2 ((goodState_mem_visited hg2 _).mpr h)
  have hs_nin_ord : s ∉ st2.order := by
    intro h
    exact hsid_nin_ord (mem_secIds h)
  have herase : st2.visiting.erase s.id = st.visiting := by
    rw [hvis2]
    exact List.erase_cons_head _ _
  refine ⟨⟨?_, ?_, ?_, ?_, ?_, ?_, ?_, ?_⟩, herase⟩
  · show s.id :: st2.visited = (secIds (st2.order ++ [s])).reverse
    rw [secIds_append, hg2.vis_eq]
    simp [secIds]
  · intro x hx
    rcases List.mem_append.mp hx with h | h
    · exact hg2.order_sub x h
    · rw [List.mem_singleton.mp h]; exact hs
  · rw [secIds_append]
    rw [List.nodup_append]
    refine ⟨hg2.order_nodup, ?_, ?_⟩
    · exact List.nodup_singleton _
    · intro a ha hb
      have : a = s.id := by simpa [secIds] using hb
      subst this
      exact hsid_nin_ord ha
  · show (st2.visiting.erase s.id).Nodup
    rw [herase]; exact hg.visiting_nodup
  · intro v hv
    rw [herase] at hv
    exact hg.visiting_sub v hv
  · intro v hv
    rw [herase] at hv
    have hv2 : v ∈ st2.visiting := by rw [hvis2]; exact List.mem_cons_of_mem _ hv
    intro hmem
    rcases List.mem_cons.mp hmem with h | h
    · exact hnp (h ▸ hv)
    · exact hg2.disj v hv2 h
  · intro x hx d hd
    rcases List.mem_append.mp hx with h | h
    · rcases hg2.topo x h d hd with ⟨hdo, hidx⟩
      refine ⟨List.mem_append_left _ hdo, ?_⟩
      rw [List.indexOf_append_of_mem hdo, List.indexOf_append_of_mem h]
      exact hidx
    · have hxs : x = s := List.mem_singleton.mp h
      subst hxs
      have hdid : d.id ∈ st2.visited := hdeps d hd
      have hdid_ord : d.id ∈ secIds st2.order := (goodState_mem_visited hg2 _).mp hdid
      rcases exists_of_mem_secIds hdid_ord with ⟨x2, hx2, hx2id⟩
      rcases List.mem_map.mp hdid_ord with ⟨x3, hx3, hx3id⟩
      have hx3mem : x3 ∈ sections := hg2.order_sub x3 hx3
      have hdx3 : x3 = d := id_inj hnd hx3mem (sectionDeps_subset hd) hx3id
      have hdord : d ∈ st2.order := hdx3 ▸ hx3
      refine ⟨List.mem_append_left _ hdord, ?_⟩
      rw [List.indexOf_append_of_mem hdord]
      rw [List.indexOf_append_of_not_mem hs_nin_ord]
      have h1 : st2.order.indexOf d < st2.order.length :=
        List.indexOf_lt_length.mpr hdord
      simp only [List.indexOf_cons_self]
      omega
  · show List.Chain' (fun a b => DepEdgeId sections b a) (st2.visiting.erase s.id)
    rw [herase]
    exact hg.chain

theorem linked_of_visiting_eq {sections : List RSection} {st st3 : DfsState}
    {d : RSection} (he : st3.visiting = st.visiting)
    (hl : Linked sections st d) : Linked sections st3 d :=
  fun h t heq => hl h t (he.symm.trans heq)

theorem visitOut_cons_of_visited {sections : List RSection} {s : RSection}
    {rest : List RSection} {st : DfsState} {res : Except String DfsState}
    (hv : s.id ∈ st.visited) (h : VisitOut sections rest st res) :
    VisitOut sections (s :: rest) st res := by
  cases h with
  | err x hx hcyc => exact VisitOut.err x hx hcyc
  | ok st2 hg2 hvis hext hdone hmono =>
    refine VisitOut.ok st2 hg2 hvis ?_ ?_ hmono
    · rcases hext with ⟨ext, he, hc⟩
      refine ⟨ext, he, fun x hx => ?_⟩
      rcases hc x hx with ⟨d, hd, hh⟩
      exact ⟨d, List.mem_cons_of_mem _ hd, hh⟩
    · intro d hd
      rcases List.mem_cons.mp hd with h | h
      · rw [h]; exact hmono _ hv
      · exact hdone d h

/-- The central specification of the traversal: under the invariant and
with enough fuel, the traversal either throws the circular dependency
error for a section lying on a dependency cycle, or completes with the
invariant intact, the worklist done, and only worklist sections or
sections they transitively reference newly appended to the order. -/
theorem visitAux_spec (sections : List RSection) (hnd : (secIds sections).Nodup) :
    ∀ (fuel : Nat) (ds : List RSection) (st : DfsState),
    (∀ d ∈ ds, d ∈ sections) → GoodState sections st →
    (∀ d ∈ ds, Linked sections st d) →
    sections.length < fuel + st.visiting.length →
    VisitOut sections ds st (visitAux sections fuel ds st) := by
  intro fuel
  induction fuel with
  | zero =>
    intro ds
    induction ds with
    | nil =>
      intro st _ hg _ _
      rw [visitAux_nil]
      exact VisitOut.ok st hg rfl ⟨[], by simp, by simp⟩ (by simp) (fun v hv => hv)
    | cons s rest ih =>
      intro st hsub hg hlink harith
      by_cases hv : s.id ∈ st.visited
      · rw [visitAux_cons_visited sections 0 s rest st hv]
        exact visitOut_cons_of_visited hv
          (ih st (fun d hd => hsub d (List.mem_cons_of_mem _ hd)) hg
            (fun d hd => hlink d (List.mem_cons_of_mem _ hd)) harith)
      · by_cases hp : s.id ∈ st.visiting
        · rw [visitAux_cons_visiting sections 0 s rest st hv hp]
          exact VisitOut.err s (hsub s (List.mem_cons_self _ _))
            (cycle_at_revisit hnd hg (hlink s (List.mem_cons_self _ _))
              (hsub s (List.mem_cons_self _ _)) hp)
        · exfalso
          have := visiting_length_le hg
          omega
  | succ n ihn =>
    intro ds
    induction ds with
    | nil =>
      intro st _ hg _ _
      rw [visitAux_nil]
      exact VisitOut.ok st hg rfl ⟨[], by simp, by simp⟩ (by simp) (fun v hv => hv)
    | cons s rest ih =>
      intro st hsub hg hlink harith
      by_cases hv : s.id ∈ st.visited
      · rw [visitAux_cons_visited sections (n + 1) s rest st hv]
        exact visitOut_cons_of_visited hv
          (ih st (fun d hd => hsub d (List.mem_cons_of_mem _ hd)) hg
            (fun d hd => hlink d (List.mem_cons_of_mem _ hd)) harith)
      · by_cases hp : s.id ∈ st.visiting
        · rw [visitAux_cons_visiting sections (n + 1) s rest st hv hp]
          exact VisitOut.err s (hsub s (List.mem_cons_self _ _))
            (cycle_at_revisit hnd hg (hlink s (List.mem_cons_self _ _))
              (hsub s (List.mem_cons_self _ _)) hp)
        · rw [visitAux_cons_succ sections n s rest st hv hp]
          have hsmem : s ∈ sections := hsub s (List.mem_cons_self _ _)
          have hlinks : Linked sections st s := hlink s (List.mem_cons_self _ _)
          have hgpush : GoodState sections { st with visiting := s.id :: st.visiting } :=
            push_goodState hg hsmem hv hp hlinks
          have hlinkdeps : ∀ d ∈ sectionDeps sections s,
              Linked sections { st with visiting := s.id :: st.visiting } d := by
            intro d hd h t heq
            have hh : s.id = h ∧ st.visiting = t := by
              have : s.id :: st.visiting = h :: t := heq
              exact ⟨by injection this, by injection this⟩
            exact ⟨s, hsmem, hh.1, d, hd, rfl⟩
          have harith2 : sections.length <
              n + ({ st with visiting := s.id :: st.visiting } : DfsState).visiting.length := by
            simp only [List.length_cons]
            omega
          have hout := ihn (sectionDeps sections s)
            { st with visiting := s.id :: st.visiting }
            (fun d hd => sectionDeps_subset hd) hgpush hlinkdeps harith2
          cases hres : visitAux sections n (sectionDeps sections s)
              { st with visiting := s.id :: st.visiting } with
          | error e =>
            rw [hres] at hout
            cases hout with
            | err x hx hcyc => exact VisitOut.err x hx hcyc
          | ok st2 =>
            rw [hres] at hout
            cases hout with
            | ok st2 hg2 hvis2 hext2 hdeps2 hmono2 =>
              show VisitOut sections (s :: rest) st
                (visitAux sections (n + 1) rest
                  ⟨s.id :: st2.visited, st2.visiting.erase s.id, st2.order ++ [s]⟩)
              have hvis2x : st2.visiting = s.id :: st.visiting := hvis2
              obtain ⟨hg3, herase⟩ :=
                complete_goodState hnd hg hsmem hv hp hg2 hvis2x hdeps2
              have hout2 := ih
                ⟨s.id :: st2.visited, st2.visiting.erase s.id, st2.order ++ [s]⟩
                (fun d hd => hsub d (List.mem_cons_of_mem _ hd)) hg3
                (fun d hd => linked_of_visiting_eq herase
                  (hlink d (List.mem_cons_of_mem _ hd)))
                (by
                  show sections.length < (n + 1) + (st2.visiting.erase s.id).length
                  rw [herase]
                  exact harith)
              cases hres2 : visitAux sections (n + 1) rest
                  ⟨s.id :: st2.visited, st2.visiting.erase s.id, st2.order ++ [s]⟩ with
              | error e =>
                rw [hres2] at hout2
                cases hout2 with
                | err x hx hcyc => exact VisitOut.err x hx hcyc
              | ok st4 =>
                rw [hres2] at hout2
                cases hout2 with
                | ok st4 hg4 hvis4 hext4 hdeps4 hmono4 =>
                  refine VisitOut.ok st4 hg4 ?_ ?_ ?_ ?_
                  · show st4.visiting = st.visiting
                    have : st4.visiting = st2.visiting.erase s.id := hvis4
                    rw [this, herase]
                  · rcases hext4 with ⟨ext4, he4, hc4⟩
                    rcases hext2 with ⟨ext2, he2, hc2⟩
                    have he2x : st2.order = st.order ++ ext2 := he2
                    refine ⟨ext2 ++ [s] ++ ext4, ?_, ?_⟩
                    · have : st4.order = (st2.order ++ [s]) ++ ext4 := he4
                      rw [this, he2x]
                      simp [List.append_assoc]
                    · intro x hx
                      rcases List.mem_append.mp hx with hx1 | hx4
                      · rcases List.mem_append.mp hx1 with hx2 | hxs
                        · rcases hc2 x hx2 with ⟨d, hd, hh⟩
                          refine ⟨s, List.mem_cons_self _ _, Or.inr ?_⟩
                          rcases hh with heq | htr
                          · rw [heq]
                            exact Relation.TransGen.single hd
                          · exact Relation.TransGen.head hd htr
                        · exact ⟨s, List.mem_cons_self _ _,
                            Or.inl (List.mem_singleton.mp hxs)⟩
                      · rcases hc4 x hx4 with ⟨d, hd, hh⟩
                        exact ⟨d, List.mem_cons_of_mem _ hd, hh⟩
                  · intro d hd
                    rcases List.mem_cons.mp hd with h | h
                    · rw [h]
                      exact hmono4 s.id (List.mem_cons_self _ _)
                    · exact hdeps4 d h
                  · intro v hv2
                    exact hmono4 v (List.mem_cons_of_mem _ (hmono2 v hv2))

theorem initial_goodState (sections : List RSection) :
    GoodState sections ⟨[], [], []⟩ := by
  refine ⟨rfl, ?_, ?_, List.nodup_nil, ?_, ?_, ?_, List.chain'_nil⟩
  · intro x hx; cases hx
  · simp [secIds]
  · intro v hv; cases hv
  · intro v hv; cases hv
  · intro x hx; cases hx

/-- Top-level specification of buildDependencyOrder: with pairwise
distinct ids it either throws the circular dependency error for a section
lying on a dependency cycle, or returns a permutation of the input in
which every dependency is placed strictly before each of its dependents. -/
theorem buildDependencyOrder_spec (sections : List RSection)
    (hnd : (secIds sections).Nodup) :
    (∃ x, x ∈ sections ∧ Relation.TransGen (DepEdge sections) x x ∧
      buildDependencyOrder sections = .error (circMsg x.id)) ∨
    (∃ order, buildDependencyOrder sections = .ok order ∧
      order.Perm sections ∧
      (∀ x ∈ sections, ∀ d ∈ sectionDeps sections x,
        d ∈ order ∧ order.indexOf d < order.indexOf x)) := by
  have hspec := visitAux_spec sections hnd (sections.length + 1) sections ⟨[], [], []⟩
    (fun _ hd => hd) (initial_goodState sections)
    (fun d _ h t heq => by cases heq) (by simp)
  cases hres : visitAux sections (sections.length + 1) sections ⟨[], [], []⟩ with
  | error e =>
    rw [hres] at hspec
    cases hspec with
    | err x hx hcyc =>
      left
      refine ⟨x, hx, hcyc, ?_⟩
      unfold buildDependencyOrder
      rw [hres]
      rfl
  | ok st2 =>
    rw [hres] at hspec
    cases hspec with
    | ok st2 hg2 hvis hext hdone hmono =>
      right
      have hmem : ∀ a : RSection, a ∈ st2.order ↔ a ∈ sections := by
        intro a
        constructor
        · exact hg2.order_sub a
        · intro ha
          have h1 : a.id ∈ st2.visited := hdone a ha
          have h2 : a.id ∈ secIds st2.order := (goodState_mem_visited hg2 _).mp h1
          rcases List.mem_map.mp h2 with ⟨b, hb, hbid⟩
          have hba : b = a := id_inj hnd (hg2.order_sub b hb) ha hbid
          rw [← hba]
          exact hb
      refine ⟨st2.order, ?_, ?_, ?_⟩
      · unfold buildDependencyOrder
        rw [hres]
        rfl
      · have hnd_ord : st2.order.Nodup := List.Nodup.of_map _ hg2.order_nodup
        have hnd_sec : sections.Nodup := List.Nodup.of_map _ hnd
        exact (List.perm_ext_iff_of_nodup hnd_ord hnd_sec).mpr hmem
      · intro x hx d hd
        exact hg2.topo x ((hmem x).mpr hx) d hd

/-- Transitive consequence of the per-edge ordering: every section a
section transitively references is placed strictly before it. -/
theorem transGen_indexOf {sections order : List RSection}
    (htopo : ∀ x ∈ sections, ∀ d ∈ sectionDeps sections x,
      d ∈ order ∧ order.indexOf d < order.indexOf x) :
    ∀ x y, x ∈ sections → Relation.TransGen (DepEdge sections) x y →
    y ∈ order ∧ order.indexOf y < order.indexOf x := by
  intro x y hx htr
  induction htr with
  | single hr => exact htopo x hx _ hr
  | tail hac hr ih =>
    have hcmem := transGen_target_mem hac
    have h2 := htopo _ hcmem _ hr
    exact ⟨h2.1, h2.2.trans ih.2⟩

theorem visitAux_append (sections : List RSection) (fuel : Nat) :
    ∀ (as bs : List RSection) (st : DfsState),
    visitAux sections fuel (as ++ bs) st =
      match visitAux sections fuel as st with
      | .error e => .error e
      | .ok st2 => visitAux sections fuel bs st2 := by
  intro as
  induction as with
  | nil =>
    intro bs st
    simp [visitAux_nil]
  | cons s rest ih =>
    intro bs st
    by_cases hv : s.id ∈ st.visited
    · rw [List.cons_append, visitAux_cons_visited sections fuel s (rest ++ bs) st hv,
        visitAux_cons_visited sections fuel s rest st hv, ih]
    · by_cases hp : s.id ∈ st.visiting
      · rw [List.cons_append, visitAux_cons_visiting sections fuel s (rest ++ bs) st hv hp,
          visitAux_cons_visiting sections fuel s rest st hv hp]
      · cases fuel with
        | zero =>
          rw [List.cons_append, visitAux_cons_zero sections s (rest ++ bs) st hv hp,
            visitAux_cons_zero sections s rest st hv hp]
        | succ n =>
          rw [List.cons_append, visitAux_cons_succ sections n s (rest ++ bs) st hv hp,
            visitAux_cons_succ sections n s rest st hv hp]
          cases visitAux sections n (sectionDeps sections s)
              { st with visiting := s.id :: st.visiting } with
          | error e => rfl
          | ok st2 => exact ih bs _

theorem mem_order_of_id_visited {sections : List RSection}
    (hnd : (secIds sections).Nodup) {st : DfsState} (hg : GoodState sections st)
    {u : RSection} (hu : u ∈ sections) (h : u.id ∈ st.visited) : u ∈ st.order := by
  have h2 : u.id ∈ secIds st.order := (goodState_mem_visited hg _).mp h
  rcases List.mem_map.mp h2 with ⟨b, hb, hbid⟩
  have hba : b = u := id_inj hnd (hg.order_sub b hb) hu hbid
  rw [← hba]
  exact hb

theorem unreferenced_not_in_ext {sections : List RSection} {v : RSection}
    (hunref : ∀ t ∈ sections, v ∉ sectionDeps sections t)
    {ds : List RSection} (hds : ∀ d ∈ ds, d ∈ sections) (hvds : v ∉ ds)
    {ext : List RSection}
    (hc : ∀ x ∈ ext, ∃ d ∈ ds, x = d ∨ Relation.TransGen (DepEdge sections) d x) :
    v ∉ ext := by
  intro hv
  rcases hc v hv with ⟨d, hd, heq | htr⟩
  · exact hvds (by rw [heq]; exact hd)
  · rcases transGen_last_edge (hds d hd) htr with ⟨w, hw, hedge⟩
    exact hunref w hw hedge

theorem indexOf_concat_lt {l₁ l₂ : List RSection} {u v : RSection}
    (hu : u ∈ l₁) (hv : v ∉ l₁) :
    (l₁ ++ l₂).indexOf u < (l₁ ++ l₂).indexOf v := by
  rw [List.indexOf_append_of_mem hu, List.indexOf_append_of_not_mem hv]
  have := List.indexOf_lt_length.mpr hu
  omega

theorem no_transGen_of_no_deps {sections : List RSection} {s : RSection}
    (h : sectionDeps sections s = []) :
    ∀ w, ¬ Relation.TransGen (DepEdge sections) s w := by
  intro w hw
  induction hw with
  | single hr => rw [DepEdge, h] at hr; cases hr
  | tail _ _ ih => exact ih

/-- All section ids a section symbolically references through any of the
three reference fields that resolveReferences resolves: referenceImage,
use_character and use_characters. -/
def referencesIds (s : RSection) : List String :=
  ((match s.referenceImage with | some r => [r] | none => []) ++
   (match s.use_character with | some r => [r] | none => []) ++
   (match s.use_characters with | some rs => rs | none => [])).filterMap parseReference

/-- The reference relation of the specification between sections of a
set: x references y when some reference field of x parses to the id of
y. -/
def FullRefEdge (sections : List RSection) (x y : RSection) : Prop :=
  x ∈ sections ∧ y ∈ sections ∧ y.id ∈ referencesIds x

instance (sections : List RSection) (x y : RSection) :
    Decidable (FullRefEdge sections x y) := by
  unfold FullRefEdge
  infer_instance

theorem no_transGen_full_of_no_refs {sections : List RSection} {s : RSection}
    (h : referencesIds s = []) :
    ∀ w, ¬ Relation.TransGen (FullRefEdge sections) s w := by
  intro w hw
  induction hw with
  | single hr => rcases hr with ⟨_, _, hid⟩; rw [h] at hid; cases hid
  | tail _ _ ih => exact ih

theorem transGen_irrefl_single_edge {α : Type} {r : α → α → Prop} {A B : α}
    (hchar : ∀ x y, r x y → x = A ∧ y = B) (hAB : A ≠ B) :
    ∀ s, ¬ Relation.TransGen r s s := by
  have hall : ∀ x y, Relation.TransGen r x y → x = A ∧ y = B := by
    intro x y h
    induction h with
    | single hr => exact hchar _ _ hr
    | tail _ hr ih =>
      rcases hchar _ _ hr with ⟨hcA, hyB⟩
      exact absurd (ih.2.symm.trans hcA).symm hAB
  intro s hs
  rcases hall s s hs with ⟨h1, h2⟩
  exact hAB (h1.symm.trans h2)

instance (sections : List RSection) (x y : RSection) :
    Decidable (DepEdge sections x y) := by
  unfold DepEdge
  infer_instance

/-- Concrete sections used by the counterexamples and witnesses. -/
def exA : RSection := ⟨"a", "a.jpg", some "${b.image}", none, none, false⟩

def exB : RSection := ⟨"b", "b.jpg", none, none, none, false⟩

def exRB : RSection := ⟨"b", "b.jpg", some "${a.image}", none, none, false⟩

def exCycA : RSection := ⟨"a", "a.jpg", none, some "${b.image}", none, false⟩

def exCycB : RSection := ⟨"b", "b.jpg", none, some "${a.image}", none, false⟩

def exX : RSection := ⟨"x", "x.jpg", none, some "${z.image}", none, false⟩

def exY : RSection := ⟨"y", "y.jpg", none, none, none, false⟩

def exZ : RSection := ⟨"z", "z.jpg", none, none, none, false⟩

def exHero : RSection := ⟨"hero", "hero.jpg", none, none, none, false⟩

/-!
Evaluation lemmas for the concrete example inputs.  The traversal is
unfolded step by step through its equations; every other definition is
structural and reduces by rfl.
-/

theorem eval_build_AB : buildDependencyOrder [exA, exB] = .ok [exA, exB] := by
  have h1 : sectionDeps [exA, exB] exA = [] := rfl
  have h2 : sectionDeps [exA, exB] exB = [] := rfl
  simp +decide only [buildDependencyOrder, visitAux_nil, visitAux_cons_succ,
    visitAux_cons_visited, visitAux_cons_visiting, h1, h2,
    List.length_cons, List.length_nil]
  rfl

theorem eval_build_ARB : buildDependencyOrder [exA, exRB] = .ok [exA, exRB] := by
  have h1 : sectionDeps [exA, exRB] exA = [] := rfl
  have h2 : sectionDeps [exA, exRB] exRB = [] := rfl
  simp +decide only [buildDependencyOrder, visitAux_nil, visitAux_cons_succ,
    visitAux_cons_visited, visitAux_cons_visiting, h1, h2,
    List.length_cons, List.length_nil]
  rfl

theorem eval_build_XYZ : buildDependencyOrder [exX, exY, exZ] = .ok [exZ, exX, exY] := by
  have h1 : sectionDeps [exX, exY, exZ] exX = [exZ] := rfl
  have h2 : sectionDeps [exX, exY, exZ] exY = [] := rfl
  have h3 : sectionDeps [exX, exY, exZ] exZ = [] := rfl
  simp +decide only [buildDependencyOrder, visitAux_nil, visitAux_cons_succ,
    visitAux_cons_visited, visitAux_cons_visiting, h1, h2, h3,
    List.length_cons, List.length_nil]
  rfl

theorem eval_build_YZ : buildDependencyOrder [exY, exZ] = .ok [exY, exZ] := by
  have h1 : sectionDeps [exY, exZ] exY = [] := rfl
  have h2 : sectionDeps [exY, exZ] exZ = [] := rfl
  simp +decide only [buildDependencyOrder, visitAux_nil, visitAux_cons_succ,
    visitAux_cons_visited, visitAux_cons_visiting, h1, h2,
    List.length_cons, List.length_nil]
  rfl

/-- C1, counterexample: the section set of exA and exB is acyclic under
the full reference relation and exA references exB through its
referenceImage field, yet buildDependencyOrder returns the input order,
in which exA appears strictly BEFORE the section it references, because
the scheduler never traverses referenceImage edges. -/
theorem c1_counterexample :
    buildDependencyOrder [exA, exB] = .ok [exA, exB] ∧
    FullRefEdge [exA, exB] exA exB ∧
    (∀ s, ¬ Relation.TransGen (FullRefEdge [exA, exB]) s s) ∧
    [exA, exB].indexOf exA < [exA, exB].indexOf exB := by
  refine ⟨eval_build_AB, by decide, ?_, by decide⟩
  refine @transGen_irrefl_single_edge RSection (FullRefEdge [exA, exB]) exA exB ?_ (by decide)
  intro x y hxy
  rcases hxy with ⟨hx, hy, hid⟩
  have hx2 : x = exA ∨ x = exB := by simpa using hx
  have hy2 : y = exA ∨ y = exB := by simpa using hy
  rcases hx2 with rfl | rfl <;> rcases hy2 with rfl | rfl
  · exact absurd hid (by decide)
  · exact ⟨rfl, rfl⟩
  · exact absurd hid (by decide)
  · exact absurd hid (by decide)

/-- C1 (amended): for every set of sections with pairwise distinct ids
that is acyclic with respect to the dependency edges the scheduler
actually traverses (use_character and use_characters, but NOT
referenceImage), buildDependencyOrder returns a permutation of the input
in which every section appears strictly after every section it
transitively references through those two fields. -/
theorem c1_amended_theorem (sections : List RSection)
    (hnd : (secIds sections).Nodup)
    (hacyc : ∀ x, ¬ Relation.TransGen (DepEdge sections) x x) :
    ∃ order, buildDependencyOrder sections = .ok order ∧
      order.Perm sections ∧
      ∀ x y, x ∈ sections → Relation.TransGen (DepEdge sections) x y →
        y ∈ order ∧ order.indexOf y < order.indexOf x := by
  rcases buildDependencyOrder_spec sections hnd with ⟨x, _, hcyc, _⟩ |
    ⟨order, hok, hperm, htopo⟩
  · exact absurd hcyc (hacyc x)
  · exact ⟨order, hok, hperm, fun x y hx htr => transGen_indexOf htopo x y hx htr⟩

/-- Witness for the amended C1 at a concrete acyclic input. -/
theorem c1_amended_witness :
    (secIds [exHero]).Nodup ∧
    (∀ x, ¬ Relation.TransGen (DepEdge [exHero]) x x) ∧
    ∃ order, buildDependencyOrder [exHero] = .ok order ∧
      order.Perm [exHero] ∧
      ∀ x y, x ∈ [exHero] → Relation.TransGen (DepEdge [exHero]) x y →
        y ∈ order ∧ order.indexOf y < order.indexOf x := by
  have hnd : (secIds [exHero]).Nodup := by decide
  have hacyc : ∀ x, ¬ Relation.TransGen (DepEdge [exHero]) x x := by
    intro x hx
    have hxmem : x ∈ [exHero] := transGen_target_mem hx
    have hxe : x = exHero := by simpa using hxmem
    subst hxe
    exact no_transGen_of_no_deps (by decide) _ hx
  exact ⟨hnd, hacyc, c1_amended_theorem [exHero] hnd hacyc⟩

/-- C2, counterexample: exA and exRB reference each other through their
referenceImage fields, a reference cycle, yet buildDependencyOrder
returns an order without any error, because referenceImage edges are
never traversed by the cycle detector. -/
theorem c2_counterexample :
    Relation.TransGen (FullRefEdge [exA, exRB]) exA exA ∧
    buildDependencyOrder [exA, exRB] = .ok [exA, exRB] := by
  constructor
  · have e1 : FullRefEdge [exA, exRB] exA exRB := by decide
    have e2 : FullRefEdge [exA, exRB] exRB exA := by decide
    exact Relation.TransGen.head e1 (Relation.TransGen.single e2)
  · exact eval_build_ARB

/-- C2 (amended): for every set of sections with pairwise distinct ids
containing a cycle of the dependency edges the scheduler traverses
(use_character and use_characters; a cycle closed only through
referenceImage edges is not detected), buildDependencyOrder throws the
circular dependency error naming the id of a section lying on such a
cycle, and returns no order. -/
theorem c2_amended_theorem (sections : List RSection)
    (hnd : (secIds sections).Nodup)
    (hcyc : ∃ s, Relation.TransGen (DepEdge sections) s s) :
    ∃ x, x ∈ sections ∧ Relation.TransGen (DepEdge sections) x x ∧
      buildDependencyOrder sections = .error (circMsg x.id) := by
  rcases buildDependencyOrder_spec sections hnd with h | ⟨order, _, _, htopo⟩
  · exact h
  · rcases hcyc with ⟨s, hs⟩
    have hsmem : s ∈ sections := transGen_target_mem hs
    have h2 := transGen_indexOf htopo s s hsmem hs
    exact absurd h2.2 (lt_irrefl _)

/-- Witness for the amended C2 at a concrete two-section use_character
cycle. -/
theorem c2_amended_witness :
    (secIds [exCycA, exCycB]).Nodup ∧
    (∃ s, Relation.TransGen (DepEdge [exCycA, exCycB]) s s) ∧
    ∃ x, x ∈ [exCycA, exCycB] ∧
      Relation.TransGen (DepEdge [exCycA, exCycB]) x x ∧
      buildDependencyOrder [exCycA, exCycB] = .error (circMsg x.id) := by
  have hnd : (secIds [exCycA, exCycB]).Nodup := by decide
  have e1 : DepEdge [exCycA, exCycB] exCycA exCycB := by decide
  have e2 : DepEdge [exCycA, exCycB] exCycB exCycA := by decide
  have hcyc : ∃ s, Relation.TransGen (DepEdge [exCycA, exCycB]) s s :=
    ⟨exCycA, Relation.TransGen.head e1 (Relation.TransGen.single e2)⟩
  exact ⟨hnd, hcyc, c2_amended_theorem _ hnd hcyc⟩

/-- C3, counterexample: in the input [exX, exY, exZ], exY and exZ have no
dependency relationship in either direction under either edge relation
(both have no outgoing references at all), exY precedes exZ in the input,
yet the returned order [exZ, exX, exY] reverses them, because exZ is
hoisted in front of its dependent exX by the depth-first traversal. -/
theorem c3_counterexample :
    buildDependencyOrder [exX, exY, exZ] = .ok [exZ, exX, exY] ∧
    (∀ w, ¬ Relation.TransGen (DepEdge [exX, exY, exZ]) exY w) ∧
    (∀ w, ¬ Relation.TransGen (DepEdge [exX, exY, exZ]) exZ w) ∧
    (∀ w, ¬ Relation.TransGen (FullRefEdge [exX, exY, exZ]) exY w) ∧
    (∀ w, ¬ Relation.TransGen (FullRefEdge [exX, exY, exZ]) exZ w) ∧
    [exX, exY, exZ].indexOf exY < [exX, exY, exZ].indexOf exZ ∧
    [exZ, exX, exY].indexOf exZ < [exZ, exX, exY].indexOf exY := by
  refine ⟨eval_build_XYZ, ?_, ?_, ?_, ?_, by decide, by decide⟩
  · exact no_transGen_of_no_deps (by decide)
  · exact no_transGen_of_no_deps (by decide)
  · exact no_transGen_full_of_no_refs (by decide)
  · exact no_transGen_full_of_no_refs (by decide)

/-- C3 (amended): whenever buildDependencyOrder succeeds on a set of
sections with pairwise distinct ids, it returns a total order, a
permutation of the input; and the original relative order is preserved
below any section that no section references: merely pairwise independent
sections may be reordered, as the counterexample shows. -/
theorem c3_amended_theorem (sections : List RSection)
    (hnd : (secIds sections).Nodup) (order : List RSection)
    (hok : buildDependencyOrder sections = .ok order) :
    order.Perm sections ∧
    ∀ u v l1 l2 l3, sections = l1 ++ u :: (l2 ++ v :: l3) →
      (∀ t ∈ sections, v ∉ sectionDeps sections t) →
      order.indexOf u < order.indexOf v := by
  constructor
  · rcases buildDependencyOrder_spec sections hnd with ⟨x, _, _, herr⟩ |
      ⟨order2, hok2, hperm, _⟩
    · rw [herr] at hok; cases hok
    · rw [hok2] at hok
      injection hok with h
      rw [← h]
      exact hperm
  · intro u v l1 l2 l3 hsec hunref
    have hrun : ∃ st2, visitAux sections (sections.length + 1) sections ⟨[], [], []⟩
        = .ok st2 ∧ st2.order = order := by
      unfold buildDependencyOrder at hok
      cases hres : visitAux sections (sections.length + 1) sections ⟨[], [], []⟩ with
      | error e => rw [hres] at hok; cases hok
      | ok st2 =>
        rw [hres] at hok
        refine ⟨st2, rfl, ?_⟩
        simpa [Except.map] using hok
    rcases hrun with ⟨st2, hres, hordeq⟩
    have hsplit : sections = (l1 ++ [u]) ++ (l2 ++ v :: l3) := by
      rw [hsec]; simp
    have happ := visitAux_append sections (sections.length + 1) (l1 ++ [u])
      (l2 ++ v :: l3) ⟨[], [], []⟩
    rw [← hsplit] at happ
    have humem : u ∈ sections := by rw [hsec]; simp
    have hvmem2 : v ∈ l2 ++ v :: l3 := by simp
    have hnodup_sections : sections.Nodup := List.Nodup.of_map _ hnd
    have hvnotfirst : v ∉ l1 ++ [u] := by
      have h2 : ((l1 ++ [u]) ++ (l2 ++ v :: l3)).Nodup := by
        rw [← hsplit]; exact hnodup_sections
      have hd := List.disjoint_of_nodup_append h2
      intro hvf
      exact hd hvf hvmem2
    cases hresA : visitAux sections (sections.length + 1) (l1 ++ [u]) ⟨[], [], []⟩ with
    | error e =>
      rw [hresA] at happ
      rw [hres] at happ
      exact absurd happ (by simp)
    | ok stA =>
      have hresB : visitAux sections (sections.length + 1) (l2 ++ v :: l3) stA
          = .ok st2 := by
        have h3 := happ
        rw [hresA] at h3
        rw [hres] at h3
        exact h3.symm
      have hspecA := visitAux_spec sections hnd (sections.length + 1) (l1 ++ [u])
        ⟨[], [], []⟩ (fun d hd => by rw [hsplit]; exact List.mem_append_left _ hd)
        (initial_goodState sections) (fun d _ h t heq => by cases heq) (by simp)
      rw [hresA] at hspecA
      cases hspecA with
      | ok stA hgA hvisA hextA hdoneA hmonoA =>
        have hvisA2 : stA.visiting = [] := hvisA
        have huidA : u.id ∈ stA.visited := hdoneA u (by simp)
        have huA : u ∈ stA.order := mem_order_of_id_visited hnd hgA humem huidA
        have hvA : v ∉ stA.order := by
          rcases hextA with ⟨ext, he, hc⟩
          have hoe : stA.order = ext := by simpa using he
          rw [hoe]
          exact unreferenced_not_in_ext hunref
            (fun d hd => by rw [hsplit]; exact List.mem_append_left _ hd) hvnotfirst hc
        have hspecB := visitAux_spec sections hnd (sections.length + 1)
          (l2 ++ v :: l3) stA
          (fun d hd => by rw [hsplit]; exact List.mem_append_right _ hd) hgA
          (fun d _ h t heq => by rw [hvisA2] at heq; cases heq)
          (by rw [hvisA2]; simp)
        rw [hresB] at hspecB
        cases hspecB with
        | ok st2 hg2 hvis2 hext2 hdone2 hmono2 =>
          rcases hext2 with ⟨extB, heB, _⟩
          rw [← hordeq, heB]
          exact indexOf_concat_lt huA hvA

/-- Witness for the amended C3 at a concrete two-section input. -/
theorem c3_amended_witness :
    (secIds [exY, exZ]).Nodup ∧
    buildDependencyOrder [exY, exZ] = .ok [exY, exZ] ∧
    ([exY, exZ].Perm [exY, exZ] ∧
      ∀ u v l1 l2 l3, [exY, exZ] = l1 ++ u :: (l2 ++ v :: l3) →
        (∀ t ∈ [exY, exZ], v ∉ sectionDeps [exY, exZ] t) →
        [exY, exZ].indexOf u < [exY, exZ].indexOf v) := by
  have hnd : (secIds [exY, exZ]).Nodup := by decide
  have hok : buildDependencyOrder [exY, exZ] = .ok [exY, exZ] := eval_build_YZ
  exact ⟨hnd, hok, c3_amended_theorem _ hnd _ hok⟩

/-- The oracle environment used by concrete runs: no artifact exists on
disk yet and the external service succeeds for every section. -/
def envT : GenEnv := ⟨fun _ => false, fun _ => true⟩

def exGhost : RSection := ⟨"s", "s.jpg", none, some "${ghost.image}", none, false⟩

def exC : RSection := ⟨"c", "c.jpg", none, some "${missing-id.image}", none, false⟩

theorem eval_build_ghost : buildDependencyOrder [exGhost] = .ok [exGhost] := by
  have h1 : sectionDeps [exGhost] exGhost = [] := rfl
  simp +decide only [buildDependencyOrder, visitAux_nil, visitAux_cons_succ,
    visitAux_cons_visited, visitAux_cons_visiting, h1,
    List.length_cons, List.length_nil]
  rfl

theorem eval_build_C : buildDependencyOrder [exC] = .ok [exC] := by
  have h1 : sectionDeps [exC] exC = [] := rfl
  simp +decide only [buildDependencyOrder, visitAux_nil, visitAux_cons_succ,
    visitAux_cons_visited, visitAux_cons_visiting, h1,
    List.length_cons, List.length_nil]
  rfl

theorem eval_process_ghost :
    processChapter envT [exGhost] "out" =
      .ok (⟨1, 0, 0, 0, 0⟩, GenState.init, ["s"]) := by
  unfold processChapter
  rw [eval_build_ghost]
  rfl

/-- C4, counterexample: a dangling reference (exGhost names the id ghost,
which no section carries) is NOT detected as a structural error: the
scheduler succeeds, the resolver merely marks the missing id, and the
whole chapter run completes normally with the section deferred, not
fatal. -/
theorem c4_counterexample :
    parseReference "${ghost.image}" = some "ghost" ∧
    (∀ t ∈ [exGhost], t.id ≠ "ghost") ∧
    buildDependencyOrder [exGhost] = .ok [exGhost] ∧
    (resolveReferences ∅ exGhost [exGhost]).missingCharacterRef = some "ghost" ∧
    processChapter envT [exGhost] "out" =
      .ok (⟨1, 0, 0, 0, 0⟩, GenState.init, ["s"]) := by
  exact ⟨by decide, by decide, eval_build_ghost, by decide, eval_process_ghost⟩

theorem resolveReferences_eq (reg : Registry) (s : RSection) (allS : List RSection) :
    resolveReferences reg s allS =
      (let r2 := resolveSingle reg s.use_character
        (resolveSingle reg s.referenceImage (plainResolved s))
       match s.use_characters with
       | none => r2
       | some refs =>
         { r2 with characterReferences := some (resolveMulti reg refs).1,
                   missingCharacterRefs := some (resolveMulti reg refs).2 }) := rfl

theorem resolveSingle_none (reg : Registry) (obj : ResolvedSection) :
    resolveSingle reg none obj = obj := rfl

theorem resolveSingle_missing (reg : Registry) (r i : String) (obj : ResolvedSection)
    (hp : parseReference r = some i) (hg : Registry.get reg i = none) :
    resolveSingle reg (some r) obj =
      { obj with characterId := some i, missingCharacterRef := some i } := by
  simp only [resolveSingle, hp, hg]

/-- C4 (amended): a dangling use_character reference is not a structural
error: it contributes no dependency edge to the scheduler, the resolver
returns the section marked with the missing id, and generateImage defers
the section without touching any state, so the failure stays per-section
instead of aborting the chapter. -/
theorem c4_amended_theorem (sections : List RSection) (s : RSection)
    (r i : String) (reg : Registry) (allS : List RSection)
    (huse : s.use_character = some r) (hparse : parseReference r = some i)
    (hdangling : ∀ t ∈ sections, t.id ≠ i) (hmulti : s.use_characters = none) :
    sectionDeps sections s = [] ∧
    (Registry.get reg i = none →
      (resolveReferences reg s allS).missingCharacterRef = some i ∧
      ∀ env dir force st,
        generateImage env (resolveReferences reg s allS) dir force st =
          (GenOutcome.deferred [i], st)) := by
  have hfind : sections.find? (fun t => t.id == i) = none := by
    rw [List.find?_eq_none]
    intro t ht
    simp only [beq_iff_eq]
    exact hdangling t ht
  constructor
  · unfold sectionDeps depRefs
    rw [huse, hmulti]
    simp [hparse, hfind]
  · intro hget
    have hres : (resolveReferences reg s allS).missingCharacterRef = some i := by
      simp only [resolveReferences_eq, hmulti, huse]
      rw [resolveSingle_missing reg r i _ hparse hget]
    refine ⟨hres, ?_⟩
    intro env dir force st
    unfold generateImage
    rw [hres]
    rfl

/-- Witness for the amended C4 at the concrete dangling input. -/
theorem c4_amended_witness :
    exGhost.use_character = some "${ghost.image}" ∧
    parseReference "${ghost.image}" = some "ghost" ∧
    (∀ t ∈ [exGhost], t.id ≠ "ghost") ∧
    exGhost.use_characters = none ∧
    (sectionDeps [exGhost] exGhost = [] ∧
      (Registry.get ∅ "ghost" = none →
        (resolveReferences ∅ exGhost [exGhost]).missingCharacterRef = some "ghost" ∧
        ∀ env dir force st,
          generateImage env (resolveReferences ∅ exGhost [exGhost]) dir force st =
            (GenOutcome.deferred ["ghost"], st))) := by
  refine ⟨rfl, by decide, by decide, rfl, ?_⟩
  exact c4_amended_theorem [exGhost] exGhost "${ghost.image}" "ghost" ∅ [exGhost]
    rfl (by decide) (by decide) rfl

theorem resolveMultiStep_parse_none (reg : Registry)
    (acc : List (String × String) × List String) (ref : String)
    (hp : parseReference ref = none) : resolveMultiStep reg acc ref = acc := by
  simp [resolveMultiStep, hp]

theorem resolveMultiStep_missing (reg : Registry)
    (acc : List (String × String) × List String) (ref i : String)
    (hp : parseReference ref = some i) (hg : Registry.get reg i = none) :
    resolveMultiStep reg acc ref = (acc.1, acc.2 ++ [i]) := by
  simp [resolveMultiStep, hp, hg]

theorem resolveMultiStep_avail (reg : Registry)
    (acc : List (String × String) × List String) (ref i p : String)
    (hp : parseReference ref = some i) (hg : Registry.get reg i = some p) :
    resolveMultiStep reg acc ref = (acc.1 ++ [(i, p)], acc.2) := by
  simp [resolveMultiStep, hp, hg]

theorem resolveMulti_missing_sub (reg : Registry) :
    ∀ (rs : List String) (acc : List (String × String) × List String),
    ∀ x ∈ acc.2, x ∈ (rs.foldl (resolveMultiStep reg) acc).2 := by
  intro rs
  induction rs with
  | nil => intro acc x hx; exact hx
  | cons ref rest ih =>
    intro acc x hx
    rw [List.foldl_cons]
    apply ih
    cases hp : parseReference ref with
    | none =>
      rw [resolveMultiStep_parse_none reg acc ref hp]
      exact hx
    | some refId =>
      cases hg : Registry.get reg refId with
      | none =>
        rw [resolveMultiStep_missing reg acc ref refId hp hg]
        exact List.mem_append_left _ hx
      | some p =>
        rw [resolveMultiStep_avail reg acc ref refId p hp hg]
        exact hx

theorem resolveMulti_missing_mem (reg : Registry) :
    ∀ (rs : List String) (acc : List (String × String) × List String)
    (r i : String), r ∈ rs → parseReference r = some i →
    Registry.get reg i = none →
    i ∈ (rs.foldl (resolveMultiStep reg) acc).2 := by
  intro rs
  induction rs with
  | nil => intro acc r i hr; cases hr
  | cons ref rest ih =>
    intro acc r i hr hp hg
    rw [List.foldl_cons]
    rcases List.mem_cons.mp hr with heq | hmem
    · rw [← heq, resolveMultiStep_missing reg acc r i hp hg]
      apply resolveMulti_missing_sub
      simp
    · exact ih _ r i hmem hp hg

/-- C5: a parsed reference whose id is absent from the registry makes
resolveReferences return the section marked with that id in the
appropriate missing-reference field without any error, and generateImage
then defers the section, leaving every piece of state untouched, so the
problem can only surface later. -/
theorem c5_theorem (reg : Registry) (s : RSection) (allS : List RSection)
    (r i : String) (hparse : parseReference r = some i)
    (hget : Registry.get reg i = none) :
    (s.use_character = some r →
      (resolveReferences reg s allS).missingCharacterRef = some i) ∧
    (s.referenceImage = some r → s.use_character = none →
      (resolveReferences reg s allS).missingCharacterRef = some i) ∧
    (∀ rs, s.use_characters = some rs → r ∈ rs →
      (resolveReferences reg s allS).missingCharacterRefs = some ((resolveMulti reg rs).2) ∧
      i ∈ (resolveMulti reg rs).2) ∧
    (∀ env dir force st,
      (resolveReferences reg s allS).missingCharacterRef = some i →
      generateImage env (resolveReferences reg s allS) dir force st =
        (GenOutcome.deferred [i], st)) := by
  refine ⟨?_, ?_, ?_, ?_⟩
  · intro huse
    cases hm : s.use_characters with
    | none =>
      simp only [resolveReferences_eq, hm, huse]
      rw [resolveSingle_missing reg r i _ hparse hget]
    | some rs =>
      simp only [resolveReferences_eq, hm, huse]
      rw [resolveSingle_missing reg r i _ hparse hget]
  · intro href huse
    cases hm : s.use_characters with
    | none =>
      simp only [resolveReferences_eq, hm, huse, href, resolveSingle_none]
      rw [resolveSingle_missing reg r i _ hparse hget]
    | some rs =>
      simp only [resolveReferences_eq, hm, huse, href, resolveSingle_none]
      rw [resolveSingle_missing reg r i _ hparse hget]
  · intro rs hmulti hr
    constructor
    · simp only [resolveReferences_eq, hmulti]
    · exact resolveMulti_missing_mem reg rs ([], []) r i hr hparse hget
  · intro env dir force st hmiss
    unfold generateImage
    rw [hmiss]
    rfl

/-- Witness for C5 at a concrete section and empty registry. -/
theorem c5_witness :
    parseReference "${missing-id.image}" = some "missing-id" ∧
    Registry.get ∅ "missing-id" = none ∧
    (exC.use_character = some "${missing-id.image}" →
      (resolveReferences ∅ exC [exC]).missingCharacterRef = some "missing-id") ∧
    (∀ env dir force st,
      (resolveReferences ∅ exC [exC]).missingCharacterRef = some "missing-id" →
      generateImage env (resolveReferences ∅ exC [exC]) dir force st =
        (GenOutcome.deferred ["missing-id"], st)) := by
  have h := c5_theorem ∅ exC [exC] "${missing-id.image}" "missing-id" (by decide) (by decide)
  exact ⟨by decide, by decide, h.1, h.2.2.2⟩

theorem eval_process_C :
    processChapter envT [exC] "out" =
      .ok (⟨1, 0, 0, 0, 0⟩, GenState.init, ["c"]) := by
  unfold processChapter
  rw [eval_build_C]
  rfl

theorem pass1Step_eq (env : GenEnv) (dir : String) (sections : List RSection)
    (st : PassState) (s : RSection) :
    pass1Step env dir sections st s =
      match generateImage env (resolveReferences st.gen.generatedImages s sections)
          (imagesDir dir) false st.gen with
      | (GenOutcome.success _ true, g2) =>
        { st with
            gen := g2,
            results := { st.results with skipped := st.results.skipped + 1 } }
      | (GenOutcome.success _ false, g2) =>
        { st with
            gen := g2,
            results := { st.results with success := st.results.success + 1 } }
      | (GenOutcome.deferred _, g2) =>
        { st with gen := g2, needsRegen := st.needsRegen ++ [s.id] }
      | (GenOutcome.failed _, g2) =>
        { st with
            gen := g2,
            results := { st.results with failed := st.results.failed + 1 } } := rfl

theorem pass2Step_none (env : GenEnv) (dir : String) (sections : List RSection)
    (st : Pass2State) (sid : String)
    (h : sections.find? (fun t => t.id == sid) = none) :
    pass2Step env dir sections st sid = st := by
  unfold pass2Step
  rw [h]

theorem pass2Step_some (env : GenEnv) (dir : String) (sections : List RSection)
    (st : Pass2State) (sid : String) (s : RSection)
    (h : sections.find? (fun t => t.id == sid) = some s) :
    pass2Step env dir sections st sid =
      match generateImage env (resolveReferences st.gen.generatedImages s sections)
          (imagesDir dir) true st.gen with
      | (GenOutcome.success _ _, g2) =>
        { gen := g2,
          results := { st.results with regenerated := st.results.regenerated + 1 },
          remaining := st.remaining.erase sid }
      | (_, g2) => { st with gen := g2 } := by
  unfold pass2Step
  rw [h]

/-- C6, evaluation at the failing input together with the general fact
behind it: the section exC names a reference id that matches nothing; it
is deferred in Pass 1, retried exactly once and still unresolved after
Pass 2 (it remains in the pending set), yet the run summary reports zero
failed sections, so the section is counted in no bucket of the summary;
and no pass2Step invocation can ever increment the failed counter. -/
theorem c6_code_evaluation :
    (processChapter envT [exC] "out" =
        .ok (⟨1, 0, 0, 0, 0⟩, GenState.init, ["c"]) ∧
      (⟨1, 0, 0, 0, 0⟩ : RunResults).total ≠
        (⟨1, 0, 0, 0, 0⟩ : RunResults).success +
        (⟨1, 0, 0, 0, 0⟩ : RunResults).failed +
        (⟨1, 0, 0, 0, 0⟩ : RunResults).skipped +
        (⟨1, 0, 0, 0, 0⟩ : RunResults).regenerated) ∧
    ∀ (env : GenEnv) (dir : String) (sections : List RSection)
      (st : Pass2State) (sid : String),
      (pass2Step env dir sections st sid).results.failed = st.results.failed := by
  refine ⟨⟨eval_process_C, by decide⟩, ?_⟩
  intro env dir sections st sid
  cases hf : sections.find? (fun t => t.id == sid) with
  | none => rw [pass2Step_none env dir sections st sid hf]
  | some s =>
    rw [pass2Step_some env dir sections st sid s hf]
    cases hr : generateImage env (resolveReferences st.gen.generatedImages s sections)
        (imagesDir dir) true st.gen with
    | mk out g2 => cases out <;> rfl

/-- C7: resolveReferences never mutates its input section object: as a
heap operation it allocates the resolved copy at a fresh address,
returning a distinct object, while the object at the input address, and
every other allocated object, is left exactly as it was. -/
theorem c7_theorem (reg : Registry) (h : Heap) (addr : Nat) (obj : ResolvedSection)
    (hget : List.get? h addr = some obj) :
    ∃ h2 a2, resolveReferencesAlloc reg h addr = some (h2, a2) ∧
      a2 ≠ addr ∧
      List.get? h2 addr = some obj ∧
      List.get? h2 a2 = some (resolveObj reg obj) ∧
      ∀ j, j < List.length h → List.get? h2 j = List.get? h j := by
  have haddr : addr < List.length h := by
    by_contra hge
    rw [List.get?_eq_none.mpr (Nat.le_of_not_lt hge)] at hget
    cases hget
  refine ⟨List.append h [resolveObj reg obj], List.length h, ?_, ?_, ?_, ?_, ?_⟩
  · unfold resolveReferencesAlloc
    rw [hget]
  · omega
  · show List.get? (h ++ [resolveObj reg obj]) addr = some obj
    rw [List.get?_append haddr]
    exact hget
  · show List.get? (h ++ [resolveObj reg obj]) (List.length h) =
      some (resolveObj reg obj)
    exact List.get?_concat_length _ _
  · intro j hj
    show List.get? (h ++ [resolveObj reg obj]) j = List.get? h j
    rw [List.get?_append hj]

/-- Witness for C7 at a concrete one-object heap. -/
theorem c7_witness :
    List.get? ([plainResolved exC] : Heap) 0 = some (plainResolved exC) ∧
    ∃ h2 a2, resolveReferencesAlloc ∅ [plainResolved exC] 0 = some (h2, a2) ∧
      a2 ≠ 0 ∧
      List.get? h2 0 = some (plainResolved exC) ∧
      List.get? h2 a2 = some (resolveObj ∅ (plainResolved exC)) ∧
      ∀ j, j < List.length ([plainResolved exC] : Heap) →
        List.get? h2 j = List.get? ([plainResolved exC] : Heap) j := by
  exact ⟨rfl, c7_theorem ∅ [plainResolved exC] 0 (plainResolved exC) rfl⟩

/-- C8: with the registry fixed, two consecutive resolveReferences calls
on the same section object produce resolved outputs that are equal as
values, both determined by the section contents and the registry alone,
while being distinct freshly allocated objects. -/
theorem c8_theorem (reg : Registry) (h : Heap) (addr : Nat) (obj : ResolvedSection)
    (hget : List.get? h addr = some obj) :
    ∃ h1 a1 h2 a2,
      resolveReferencesAlloc reg h addr = some (h1, a1) ∧
      resolveReferencesAlloc reg h1 addr = some (h2, a2) ∧
      a1 ≠ a2 ∧
      List.get? h2 a1 = some (resolveObj reg obj) ∧
      List.get? h2 a2 = some (resolveObj reg obj) ∧
      List.get? h2 a1 = List.get? h2 a2 := by
  have haddr : addr < List.length h := by
    by_contra hge
    rw [List.get?_eq_none.mpr (Nat.le_of_not_lt hge)] at hget
    cases hget
  have hget1 : List.get? (List.append h [resolveObj reg obj]) addr = some obj := by
    show List.get? (h ++ [resolveObj reg obj]) addr = some obj
    rw [List.get?_append haddr]
    exact hget
  refine ⟨List.append h [resolveObj reg obj], List.length h,
    List.append (List.append h [resolveObj reg obj]) [resolveObj reg obj],
    List.length (List.append h [resolveObj reg obj]), ?_, ?_, ?_, ?_, ?_, ?_⟩
  · unfold resolveReferencesAlloc
    rw [hget]
  · unfold resolveReferencesAlloc
    rw [hget1]
  · show List.length h ≠ List.length (h ++ [resolveObj reg obj])
    rw [List.length_append]
    simp
  · show List.get? ((h ++ [resolveObj reg obj]) ++ [resolveObj reg obj])
      (List.length h) = some (resolveObj reg obj)
    have hlt : List.length h < List.length (h ++ [resolveObj reg obj]) := by
      rw [List.length_append]
      simp
    rw [List.get?_append hlt]
    exact List.get?_concat_length _ _
  · show List.get? ((h ++ [resolveObj reg obj]) ++ [resolveObj reg obj])
      (List.length (h ++ [resolveObj reg obj])) = some (resolveObj reg obj)
    exact List.get?_concat_length _ _
  · show List.get? ((h ++ [resolveObj reg obj]) ++ [resolveObj reg obj])
        (List.length h) =
      List.get? ((h ++ [resolveObj reg obj]) ++ [resolveObj reg obj])
        (List.length (h ++ [resolveObj reg obj]))
    have hlt : List.length h < List.length (h ++ [resolveObj reg obj]) := by
      rw [List.length_append]
      simp
    rw [List.get?_append hlt]
    rw [List.get?_concat_length, List.get?_concat_length]

/-- Witness for C8 at a concrete one-object heap and a registry that
already contains the artifact of the referenced section. -/
theorem c8_witness :
    List.get? ([plainResolved exC] : Heap) 0 = some (plainResolved exC) ∧
    ∃ h1 a1 h2 a2,
      resolveReferencesAlloc [("missing-id", "img.jpg")] [plainResolved exC] 0
        = some (h1, a1) ∧
      resolveReferencesAlloc [("missing-id", "img.jpg")] h1 0 = some (h2, a2) ∧
      a1 ≠ a2 ∧
      List.get? h2 a1 =
        some (resolveObj [("missing-id", "img.jpg")] (plainResolved exC)) ∧
      List.get? h2 a2 =
        some (resolveObj [("missing-id", "img.jpg")] (plainResolved exC)) ∧
      List.get? h2 a1 = List.get? h2 a2 := by
  exact ⟨rfl, c8_theorem [("missing-id", "img.jpg")] [plainResolved exC] 0
    (plainResolved exC) rfl⟩

/-- The reference syntax stated declaratively, following the words of the
specification: a string matches the syntax when it contains the pattern
dollar, open brace, a non-empty dot-free section id, a dot, the word
image, and a close brace.  This definition exists to be compared with the
regex model parseReference. -/
def MatchesRefSyntax (r : String) : Prop :=
  ∃ pre idc post, idc ≠ [] ∧ ('.' ∉ idc) ∧
    r.toList = pre ++ '$' :: '{' ::
      (idc ++ '.' :: 'i' :: 'm' :: 'a' :: 'g' :: 'e' :: '}' :: post)

theorem takeWhile_dropWhile_split (p : Char → Bool) :
    ∀ (xs ys : List Char), (∀ x ∈ xs, p x = true) →
    (∀ h t, ys = h :: t → p h = false) →
    (xs ++ ys).takeWhile p = xs ∧ (xs ++ ys).dropWhile p = ys := by
  intro xs
  induction xs with
  | nil =>
    intro ys _ hys
    cases ys with
    | nil => exact ⟨rfl, rfl⟩
    | cons h t =>
      have hph : p h = false := hys h t rfl
      constructor
      · show (h :: t).takeWhile p = []
        simp [List.takeWhile_cons, hph]
      · show (h :: t).dropWhile p = h :: t
        simp [List.dropWhile_cons, hph]
  | cons x xs ih =>
    intro ys hxs hys
    have hpx : p x = true := hxs x (List.mem_cons_self _ _)
    have hrest := ih ys (fun a ha => hxs a (List.mem_cons_of_mem _ ha)) hys
    constructor
    · show ((x :: xs) ++ ys).takeWhile p = x :: xs
      simp [List.cons_append, List.takeWhile_cons, hpx, hrest.1]
    · show ((x :: xs) ++ ys).dropWhile p = ys
      simp [List.cons_append, List.dropWhile_cons, hpx, hrest.2]

theorem refMatchAt_sound {l : List Char} {i : String} (h : refMatchAt l = some i) :
    ∃ idc post, idc ≠ [] ∧ ('.' ∉ idc) ∧
      l = '$' :: '{' ::
        (idc ++ '.' :: 'i' :: 'm' :: 'a' :: 'g' :: 'e' :: '}' :: post) := by
  rw [refMatchAt.eq_def] at h
  split at h
  · next rest =>
    dsimp only at h
    split at h
    · cases h
    · next hne =>
      split at h
      · next post heq =>
        refine ⟨rest.takeWhile (fun c => c ≠ '.'), post, ?_, ?_, ?_⟩
        · intro hempty
          rw [List.isEmpty_iff] at hne
          exact absurd hempty hne
        · intro hdot
          have := List.mem_takeWhile_imp hdot
          simp at this
        · have hsplit := List.takeWhile_append_dropWhile
            (p := fun c => decide (c ≠ '.')) (l := rest)
          rw [heq] at hsplit
          conv_lhs => rw [← hsplit]
      · cases h
  · cases h

theorem refMatchAt_complete (idc post : List Char) (hne : idc ≠ [])
    (hdot : '.' ∉ idc) :
    refMatchAt ('$' :: '{' ::
        (idc ++ '.' :: 'i' :: 'm' :: 'a' :: 'g' :: 'e' :: '}' :: post)) =
      some (String.mk idc) := by
  have hsplit := takeWhile_dropWhile_split (fun c => decide (c ≠ '.')) idc
    ('.' :: 'i' :: 'm' :: 'a' :: 'g' :: 'e' :: '}' :: post)
    (fun x hx => by simp; intro hx2; exact hdot (hx2 ▸ hx))
    (fun h t heq => by injection heq with h1 _; rw [← h1]; simp)
  rw [refMatchAt.eq_def]
  simp only []
  rw [hsplit.1, hsplit.2]
  have : idc.isEmpty = false := by
    cases idc with
    | nil => exact absurd rfl hne
    | cons a b => rfl
  rw [this]
  simp

theorem parseRefList_sound : ∀ (l : List Char) (i : String),
    parseRefList l = some i →
    ∃ pre idc post, idc ≠ [] ∧ ('.' ∉ idc) ∧
      l = pre ++ '$' :: '{' ::
        (idc ++ '.' :: 'i' :: 'm' :: 'a' :: 'g' :: 'e' :: '}' :: post) := by
  intro l
  induction l with
  | nil => intro i h; cases h
  | cons c rest ih =>
    intro i h
    have h2 : (match refMatchAt (c :: rest) with
        | some j => some j
        | none => parseRefList rest) = some i := h
    cases hm : refMatchAt (c :: rest) with
    | some j =>
      rcases refMatchAt_sound hm with ⟨idc, post, hne, hdot, heq⟩
      exact ⟨[], idc, post, hne, hdot, heq⟩
    | none =>
      rw [hm] at h2
      rcases ih i h2 with ⟨pre, idc, post, hne, hdot, heq⟩
      exact ⟨c :: pre, idc, post, hne, hdot, by rw [List.cons_append, heq]⟩

theorem parseRefList_complete : ∀ (pre idc post : List Char), idc ≠ [] →
    ('.' ∉ idc) →
    ∃ j, parseRefList (pre ++ '$' :: '{' ::
      (idc ++ '.' :: 'i' :: 'm' :: 'a' :: 'g' :: 'e' :: '}' :: post)) = some j := by
  intro pre
  induction pre with
  | nil =>
    intro idc post hne hdot
    refine ⟨String.mk idc, ?_⟩
    rw [List.nil_append]
    show (match refMatchAt ('$' :: '{' ::
        (idc ++ '.' :: 'i' :: 'm' :: 'a' :: 'g' :: 'e' :: '}' :: post)) with
      | some j => some j
      | none => parseRefList ('{' ::
          (idc ++ '.' :: 'i' :: 'm' :: 'a' :: 'g' :: 'e' :: '}' :: post))) =
      some (String.mk idc)
    rw [refMatchAt_complete idc post hne hdot]
  | cons c pre ih =>
    intro idc post hne hdot
    rw [List.cons_append]
    cases hm : refMatchAt (c :: (pre ++ '$' :: '{' ::
        (idc ++ '.' :: 'i' :: 'm' :: 'a' :: 'g' :: 'e' :: '}' :: post))) with
    | some j =>
      refine ⟨j, ?_⟩
      show (match refMatchAt (c :: (pre ++ '$' :: '{' ::
          (idc ++ '.' :: 'i' :: 'm' :: 'a' :: 'g' :: 'e' :: '}' :: post))) with
        | some j => some j
        | none => parseRefList (pre ++ '$' :: '{' ::
            (idc ++ '.' :: 'i' :: 'm' :: 'a' :: 'g' :: 'e' :: '}' :: post))) = some j
      rw [hm]
    | none =>
      rcases ih idc post hne hdot with ⟨j, hj⟩
      refine ⟨j, ?_⟩
      show (match refMatchAt (c :: (pre ++ '$' :: '{' ::
          (idc ++ '.' :: 'i' :: 'm' :: 'a' :: 'g' :: 'e' :: '}' :: post))) with
        | some j => some j
        | none => parseRefList (pre ++ '$' :: '{' ::
            (idc ++ '.' :: 'i' :: 'm' :: 'a' :: 'g' :: 'e' :: '}' :: post))) = some j
      rw [hm]
      exact hj

/-- The regex model agrees with the declarative syntax: a string parses
to some id exactly when it matches the reference syntax. -/
theorem matchesRefSyntax_iff (r : String) :
    MatchesRefSyntax r ↔ ∃ i, parseReference r = some i := by
  constructor
  · rintro ⟨pre, idc, post, hne, hdot, heq⟩
    unfold parseReference
    rw [heq]
    exact parseRefList_complete pre idc post hne hdot
  · rintro ⟨i, hi⟩
    unfold parseReference at hi
    rcases parseRefList_sound _ i hi with ⟨pre, idc, post, hne, hdot, heq⟩
    exact ⟨pre, idc, post, hne, hdot, heq⟩

/-- C10: a reference string that does not match the reference syntax is
parsed to none, and is then ignored at every use site: resolveSingle
leaves the resolved object exactly as an absent reference would, the
use_characters loop step leaves both accumulated lists unchanged, and the
dependency computation of the scheduler treats the section exactly as if
the malformed reference were absent. -/
theorem c10_theorem (r : String) (hnm : ¬ MatchesRefSyntax r) :
    parseReference r = none ∧
    (∀ (reg : Registry) (obj : ResolvedSection),
      resolveSingle reg (some r) obj = obj ∧ resolveSingle reg none obj = obj) ∧
    (∀ (reg : Registry) (acc : List (String × String) × List String),
      resolveMultiStep reg acc r = acc) ∧
    (∀ (sections : List RSection) (s : RSection), s.use_character = some r →
      sectionDeps sections s = sectionDeps sections { s with use_character := none }) ∧
    (∀ (sections : List RSection) (s : RSection) (rs1 rs2 : List String),
      s.use_characters = some (rs1 ++ r :: rs2) →
      sectionDeps sections s =
        sectionDeps sections { s with use_characters := some (rs1 ++ rs2) }) := by
  have hp : parseReference r = none := by
    cases hcase : parseReference r with
    | none => rfl
    | some i => exact absurd ((matchesRefSyntax_iff r).mpr ⟨i, hcase⟩) hnm
  refine ⟨hp, ?_, ?_, ?_, ?_⟩
  · intro reg obj
    exact ⟨by simp [resolveSingle, hp], rfl⟩
  · intro reg acc
    simp [resolveMultiStep, hp]
  · intro sections s huse
    unfold sectionDeps depRefs
    rw [huse]
    simp [hp]
  · intro sections s rs1 rs2 hm
    unfold sectionDeps depRefs
    rw [hm]
    simp [List.filterMap_append, List.filterMap_cons, hp]

/-- Witness for C10 at the concrete malformed reference string with two
dots, which the syntax does not generate. -/
theorem c10_witness :
    ¬ MatchesRefSyntax "${a.b.image}" ∧
    (parseReference "${a.b.image}" = none ∧
      (∀ (reg : Registry) (obj : ResolvedSection),
        resolveSingle reg (some "${a.b.image}") obj = obj ∧
          resolveSingle reg none obj = obj) ∧
      (∀ (reg : Registry) (acc : List (String × String) × List String),
        resolveMultiStep reg acc "${a.b.image}" = acc) ∧
      (∀ (sections : List RSection) (s : RSection),
        s.use_character = some "${a.b.image}" →
        sectionDeps sections s =
          sectionDeps sections { s with use_character := none }) ∧
      (∀ (sections : List RSection) (s : RSection) (rs1 rs2 : List String),
        s.use_characters = some (rs1 ++ "${a.b.image}" :: rs2) →
        sectionDeps sections s =
          sectionDeps sections { s with use_characters := some (rs1 ++ rs2) })) := by
  have hnm : ¬ MatchesRefSyntax "${a.b.image}" := by
    rw [matchesRefSyntax_iff]
    rintro ⟨i, hi⟩
    have : parseReference "${a.b.image}" = none := by decide
    rw [this] at hi
    cases hi
  exact ⟨hnm, c10_theorem "${a.b.image}" hnm⟩

/-!
Proof layer for the registry lifecycle of processChapter.
-/

theorem Registry_keys_append (r : Registry) (k v : String) :
    Registry.keys (r ++ [(k, v)]) = Registry.keys r ++ [k] := by
  unfold Registry.keys
  rw [List.map_append]
  rfl

theorem Registry_set_fresh {r : Registry} {k : String} (v : String)
    (h : k ∉ Registry.keys r) : Registry.set r k v = r ++ [(k, v)] := by
  unfold Registry.set
  rw [if_neg]
  · rfl
  · intro hany
    rw [List.any_eq_true] at hany
    rcases hany with ⟨p, hp, hpk⟩
    have : p.1 = k := eq_of_beq hpk
    exact h (this ▸ List.mem_map_of_mem Prod.fst hp)

theorem Registry_get_append {r ext : Registry} {k v : String}
    (h : Registry.get r k = some v) : Registry.get (r ++ ext) k = some v := by
  unfold Registry.get at h ⊢
  induction r with
  | nil => cases h
  | cons a t ih =>
    rw [List.cons_append]
    cases hpa : (a.1 == k) with
    | true =>
      rw [List.find?_cons_of_pos t hpa] at h
      rw [List.find?_cons_of_pos (t ++ ext) hpa]
      exact h
    | false =>
      have hneg : ¬ ((fun p : String × String => p.1 == k) a = true) := by
        simp only [hpa]
        exact Bool.false_ne_true
      rw [List.find?_cons_of_neg t hneg] at h
      rw [List.find?_cons_of_neg (t ++ ext) hneg]
      exact ih h

theorem resolveSingle_base (reg : Registry) (o : Option String)
    (r : ResolvedSection) : (resolveSingle reg o r).base = r.base := by
  cases o with
  | none => rfl
  | some str =>
    cases hp : parseReference str with
    | none => simp [resolveSingle, hp]
    | some i =>
      cases hg : Registry.get reg i with
      | none => simp [resolveSingle, hp, hg]
      | some p => simp [resolveSingle, hp, hg]

theorem resolveReferences_base (reg : Registry) (s : RSection)
    (allS : List RSection) : (resolveReferences reg s allS).base = s := by
  rw [resolveReferences_eq]
  cases s.use_characters with
  | none =>
    show (resolveSingle reg s.use_character
      (resolveSingle reg s.referenceImage (plainResolved s))).base = s
    rw [resolveSingle_base, resolveSingle_base]
    rfl
  | some rs =>
    show (resolveSingle reg s.use_character
      (resolveSingle reg s.referenceImage (plainResolved s))).base = s
    rw [resolveSingle_base, resolveSingle_base]
    rfl

theorem generateImage_registry (env : GenEnv) (s : ResolvedSection) (dir : String)
    (force : Bool) (st : GenState) :
    ((generateImage env s dir force st).2.generatedImages = st.generatedImages ∧
      ∀ p sk, (generateImage env s dir force st).1 ≠ GenOutcome.success p sk) ∨
    (∃ v, (generateImage env s dir force st).2.generatedImages =
        Registry.set st.generatedImages s.base.id v ∧
      ∃ sk, (generateImage env s dir force st).1 = GenOutcome.success v sk) := by
  unfold generateImage
  dsimp only
  by_cases h1 : (s.missingCharacterRef.isSome ||
      (match s.missingCharacterRefs with | some l => !l.isEmpty | none => false)) = true
  · rw [if_pos h1]
    left
    exact ⟨rfl, fun p sk h => by cases h⟩
  · rw [if_neg h1]
    by_cases h2 : ((st.files.contains (pathJoin dir s.base.image) ||
        env.fileExists (pathJoin dir s.base.image)) && !force) = true
    · rw [if_pos h2]
      right
      exact ⟨pathJoin dir s.base.image, rfl, true, rfl⟩
    · rw [if_neg h2]
      by_cases h3 : env.genSuccess s.base.id = true
      · rw [if_pos h3]
        right
        exact ⟨pathJoin dir s.base.image, rfl, false, rfl⟩
      · rw [if_neg h3]
        left
        exact ⟨rfl, fun p sk h => by cases h⟩

theorem pass1Step_spec (env : GenEnv) (dir : String) (sections : List RSection)
    (st : PassState) (s : RSection)
    (hfresh : s.id ∉ Registry.keys st.gen.generatedImages) :
    ((pass1Step env dir sections st s).gen.generatedImages = st.gen.generatedImages ∧
      ((pass1Step env dir sections st s).needsRegen = st.needsRegen ∨
        (pass1Step env dir sections st s).needsRegen = st.needsRegen ++ [s.id])) ∨
    (∃ v, (pass1Step env dir sections st s).gen.generatedImages =
        st.gen.generatedImages ++ [(s.id, v)] ∧
      (pass1Step env dir sections st s).needsRegen = st.needsRegen ∧
      ∃ sk, (generateImage env (resolveReferences st.gen.generatedImages s sections)
        (imagesDir dir) false st.gen).1 = GenOutcome.success v sk) := by
  have hreg := generateImage_registry env
    (resolveReferences st.gen.generatedImages s sections) (imagesDir dir) false st.gen
  rw [resolveReferences_base] at hreg
  rw [pass1Step_eq]
  cases hres : generateImage env (resolveReferences st.gen.generatedImages s sections)
      (imagesDir dir) false st.gen with
  | mk out g2 =>
    rw [hres] at hreg
    cases out with
    | success p sk =>
      rcases hreg with ⟨_, hne⟩ | ⟨v, hv, sk2, hsucc⟩
      · exact absurd rfl (hne p sk)
      · right
        have hv2 : g2.generatedImages =
            Registry.set st.gen.generatedImages s.id v := hv
        refine ⟨v, ?_, ?_, sk2, hsucc⟩
        · cases sk with
          | true =>
            show g2.generatedImages = st.gen.generatedImages ++ [(s.id, v)]
            rw [hv2, Registry_set_fresh v hfresh]
          | false =>
            show g2.generatedImages = st.gen.generatedImages ++ [(s.id, v)]
            rw [hv2, Registry_set_fresh v hfresh]
        · cases sk with
          | true => rfl
          | false => rfl
    | deferred m =>
      rcases hreg with ⟨hunch, _⟩ | ⟨v, _, sk2, hsucc⟩
      · left
        exact ⟨hunch, Or.inr rfl⟩
      · cases hsucc
    | failed m =>
      rcases hreg with ⟨hunch, _⟩ | ⟨v, _, sk2, hsucc⟩
      · left
        exact ⟨hunch, Or.inl rfl⟩
      · cases hsucc

theorem pass2Step_spec (env : GenEnv) (dir : String) (sections : List RSection)
    (st : Pass2State) (sid : String)
    (hfresh : sid ∉ Registry.keys st.gen.generatedImages) :
    ((pass2Step env dir sections st sid).gen.generatedImages
        = st.gen.generatedImages) ∨
    (∃ s v, sections.find? (fun t => t.id == sid) = some s ∧ s.id = sid ∧
      (pass2Step env dir sections st sid).gen.generatedImages =
        st.gen.generatedImages ++ [(sid, v)] ∧
      ∃ sk, (generateImage env (resolveReferences st.gen.generatedImages s sections)
        (imagesDir dir) true st.gen).1 = GenOutcome.success v sk) := by
  cases hf : sections.find? (fun t => t.id == sid) with
  | none =>
    left
    rw [pass2Step_none env dir sections st sid hf]
  | some s =>
    have hsid : s.id = sid := by
      have := List.find?_some hf
      exact eq_of_beq (by simpa using this)
    rw [pass2Step_some env dir sections st sid s hf]
    have hreg := generateImage_registry env
      (resolveReferences st.gen.generatedImages s sections) (imagesDir dir) true st.gen
    rw [resolveReferences_base] at hreg
    cases hres : generateImage env (resolveReferences st.gen.generatedImages s sections)
        (imagesDir dir) true st.gen with
    | mk out g2 =>
      rw [hres] at hreg
      cases out with
      | success p sk =>
        rcases hreg with ⟨_, hne⟩ | ⟨v, hv, sk2, hsucc⟩
        · exact absurd rfl (hne p sk)
        · right
          refine ⟨s, v, rfl, hsid, ?_, sk2, ?_⟩
          · show g2.generatedImages = st.gen.generatedImages ++ [(sid, v)]
            have hv2 : g2.generatedImages =
                Registry.set st.gen.generatedImages s.id v := hv
            rw [hv2, hsid, Registry_set_fresh v hfresh]
          · rw [hres]
            exact hsucc
      | deferred m =>
        rcases hreg with ⟨hunch, _⟩ | ⟨v, _, sk2, hsucc⟩
        · left
          exact hunch
        · cases hsucc
      | failed m =>
        rcases hreg with ⟨hunch, _⟩ | ⟨v, _, sk2, hsucc⟩
        · left
          exact hunch
        · cases hsucc

theorem scanl_head {α β : Type} (f : β → α → β) (b : β) (l : List α) :
    (List.scanl f b l).head? = some b := by
  cases l with
  | nil => rfl
  | cons a t => rw [List.scanl_cons]; rfl

theorem scanl_ne_nil {α β : Type} (f : β → α → β) (b : β) (l : List α) :
    List.scanl f b l ≠ [] := by
  cases l with
  | nil => simp [List.scanl_nil]
  | cons a t => rw [List.scanl_cons]; simp

theorem scanl_getLast {α β : Type} (f : β → α → β) :
    ∀ (l : List α) (b : β),
    (List.scanl f b l).getLast? = some (List.foldl f b l) := by
  intro l
  induction l with
  | nil => intro b; rfl
  | cons a t ih =>
    intro b
    rw [List.scanl_cons, List.foldl_cons]
    rw [List.getLast?_append_of_ne_nil [b] (scanl_ne_nil f (f b a) t)]
    exact ih (f b a)

/-- The append-extension relation between the registries of two pass-1
states: the later registry is the earlier one with entries appended. -/
def RegExtP (st1 st2 : PassState) : Prop :=
  ∃ ext, st2.gen.generatedImages = st1.gen.generatedImages ++ ext

/-- The append-extension relation between the registries of two pass-2
states. -/
def RegExt2 (st1 st2 : Pass2State) : Prop :=
  ∃ ext, st2.gen.generatedImages = st1.gen.generatedImages ++ ext

/-- The pass-1 invariant with respect to the ids already processed:
registry keys are processed ids without duplicates, and the deferred ids
are processed ids absent from the registry, recorded without
duplicates. -/
def RegOk1 (done : List String) (st : PassState) : Prop :=
  (∀ k ∈ Registry.keys st.gen.generatedImages, k ∈ done) ∧
  (Registry.keys st.gen.generatedImages).Nodup ∧
  (∀ k ∈ st.needsRegen, k ∈ done) ∧
  (∀ k ∈ st.needsRegen, k ∉ Registry.keys st.gen.generatedImages) ∧
  st.needsRegen.Nodup

theorem pass1_fold_spec (env : GenEnv) (dir : String) (sections : List RSection) :
    ∀ (todo : List RSection) (done : List String) (st : PassState),
    (secIds todo).Nodup → (∀ d ∈ todo, d.id ∉ done) → RegOk1 done st →
    List.Chain' RegExtP (List.scanl (pass1Step env dir sections) st todo) ∧
    RegOk1 (done ++ secIds todo) (List.foldl (pass1Step env dir sections) st todo) ∧
    (∀ st2 ∈ List.scanl (pass1Step env dir sections) st todo,
      (Registry.keys st2.gen.generatedImages).Nodup ∧
      ∀ k ∈ Registry.keys st2.gen.generatedImages, k ∈ done ++ secIds todo) := by
  intro todo
  induction todo with
  | nil =>
    intro done st _ _ hok
    refine ⟨?_, ?_, ?_⟩
    · rw [List.scanl_nil]
      exact List.chain'_singleton st
    · simpa [secIds] using hok
    · intro st2 hst2
      rw [List.scanl_nil, List.mem_singleton] at hst2
      subst hst2
      refine ⟨hok.2.1, ?_⟩
      intro k hk
      exact List.mem_append_left _ (hok.1 k hk)
  | cons s todo ih =>
    intro done st hnd hnotin hok
    have hsecs : secIds (s :: todo) = s.id :: secIds todo := rfl
    have hfresh : s.id ∉ Registry.keys st.gen.generatedImages := by
      intro hk
      exact hnotin s (List.mem_cons_self s todo) (hok.1 s.id hk)
    have hnotnr : s.id ∉ st.needsRegen := fun hmem =>
      hnotin s (List.mem_cons_self s todo) (hok.2.2.1 s.id hmem)
    have hstep := pass1Step_spec env dir sections st s hfresh
    have hok2 : RegOk1 (done ++ [s.id]) (pass1Step env dir sections st s) := by
      rcases hstep with ⟨hreg, hnr⟩ | ⟨v, hreg, hnr, _⟩
      · refine ⟨?_, ?_, ?_, ?_, ?_⟩
        · intro k hk
          rw [hreg] at hk
          exact List.mem_append_left _ (hok.1 k hk)
        · rw [hreg]
          exact hok.2.1
        · intro k hk
          rcases hnr with h | h
          · rw [h] at hk
            exact List.mem_append_left _ (hok.2.2.1 k hk)
          · rw [h] at hk
            rcases List.mem_append.mp hk with h2 | h2
            · exact List.mem_append_left _ (hok.2.2.1 k h2)
            · exact List.mem_append_right _ h2
        · intro k hk
          rw [hreg]
          rcases hnr with h | h
          · rw [h] at hk
            exact hok.2.2.2.1 k hk
          · rw [h] at hk
            rcases List.mem_append.mp hk with h2 | h2
            · exact hok.2.2.2.1 k h2
            · have hks : k = s.id := by simpa using h2
              rw [hks]
              exact hfresh
        · rcases hnr with h | h
          · rw [h]
            exact hok.2.2.2.2
          · rw [h, List.nodup_append]
            refine ⟨hok.2.2.2.2, List.nodup_singleton _, ?_⟩
            intro a ha hb
            rw [List.mem_singleton.mp hb] at ha
            exact hnotnr ha
      · refine ⟨?_, ?_, ?_, ?_, ?_⟩
        · intro k hk
          rw [hreg, Registry_keys_append] at hk
          rcases List.mem_append.mp hk with h2 | h2
          · exact List.mem_append_left _ (hok.1 k h2)
          · exact List.mem_append_right _ h2
        · rw [hreg, Registry_keys_append, List.nodup_append]
          refine ⟨hok.2.1, List.nodup_singleton _, ?_⟩
          intro a ha hb
          rw [List.mem_singleton.mp hb] at ha
          exact hfresh ha
        · intro k hk
          rw [hnr] at hk
          exact List.mem_append_left _ (hok.2.2.1 k hk)
        · intro k hk
          rw [hnr] at hk
          rw [hreg, Registry_keys_append]
          intro hk2
          rcases List.mem_append.mp hk2 with h2 | h2
          · exact hok.2.2.2.1 k hk h2
          · have hks : k = s.id := by simpa using h2
            rw [hks] at hk
            exact hnotnr hk
        · rw [hnr]
          exact hok.2.2.2.2
    have hnd2 : (secIds todo).Nodup := by
      rw [hsecs, List.nodup_cons] at hnd
      exact hnd.2
    have hheadnd : s.id ∉ secIds todo := by
      rw [hsecs, List.nodup_cons] at hnd
      exact hnd.1
    have hnotin2 : ∀ d ∈ todo, d.id ∉ done ++ [s.id] := by
      intro d hd hk
      rcases List.mem_append.mp hk with h2 | h2
      · exact hnotin d (List.mem_cons_of_mem s hd) h2
      · have hds : d.id = s.id := by simpa using h2
        exact hheadnd (hds ▸ mem_secIds hd)
    have hrec := ih (done ++ [s.id]) (pass1Step env dir sections st s) hnd2 hnotin2 hok2
    have hdone : done ++ secIds (s :: todo) = (done ++ [s.id]) ++ secIds todo := by
      rw [hsecs, List.append_cons]
    refine ⟨?_, ?_, ?_⟩
    · rw [List.scanl_cons, List.singleton_append, List.chain'_cons']
      constructor
      · intro y hy
        rw [scanl_head, Option.mem_some_iff] at hy
        subst hy
        rcases hstep with ⟨hreg, _⟩ | ⟨v, hreg, _, _⟩
        · exact ⟨[], by rw [hreg, List.append_nil]⟩
        · exact ⟨[(s.id, v)], hreg⟩
      · exact hrec.1
    · rw [List.foldl_cons, hdone]
      exact hrec.2.1
    · intro st2 hst2
      rw [List.scanl_cons, List.singleton_append, List.mem_cons] at hst2
      rcases hst2 with h | h
      · subst h
        refine ⟨hok.2.1, ?_⟩
        intro k hk
        exact List.mem_append_left _ (hok.1 k hk)
      · have := hrec.2.2 st2 h
        rw [hdone]
        exact this

/-- The pass-2 invariant: registry keys are section ids without
duplicates, and none of the still-pending ids is in the registry. -/
def RegOk2 (sections : List RSection) (todo : List String) (st : Pass2State) : Prop :=
  (∀ k ∈ Registry.keys st.gen.generatedImages, k ∈ secIds sections) ∧
  (Registry.keys st.gen.generatedImages).Nodup ∧
  (∀ k ∈ todo, k ∉ Registry.keys st.gen.generatedImages)

theorem pass2_fold_spec (env : GenEnv) (dir : String) (sections : List RSection) :
    ∀ (todo : List String) (st : Pass2State),
    todo.Nodup → RegOk2 sections todo st →
    List.Chain' RegExt2 (List.scanl (pass2Step env dir sections) st todo) ∧
    (∀ st2 ∈ List.scanl (pass2Step env dir sections) st todo,
      (Registry.keys st2.gen.generatedImages).Nodup ∧
      ∀ k ∈ Registry.keys st2.gen.generatedImages, k ∈ secIds sections) := by
  intro todo
  induction todo with
  | nil =>
    intro st _ hok
    refine ⟨?_, ?_⟩
    · rw [List.scanl_nil]
      exact List.chain'_singleton st
    · intro st2 hst2
      rw [List.scanl_nil, List.mem_singleton] at hst2
      subst hst2
      exact ⟨hok.2.1, hok.1⟩
  | cons sid todo ih =>
    intro st hnd hok
    have hfresh : sid ∉ Registry.keys st.gen.generatedImages :=
      hok.2.2 sid (List.mem_cons_self sid todo)
    have hstep := pass2Step_spec env dir sections st sid hfresh
    have hok2 : RegOk2 sections todo (pass2Step env dir sections st sid) := by
      rcases hstep with hreg | ⟨s, v, hfind, hsid, hreg, _⟩
      · refine ⟨?_, ?_, ?_⟩
        · intro k hk
          rw [hreg] at hk
          exact hok.1 k hk
        · rw [hreg]
          exact hok.2.1
        · intro k hk
          rw [hreg]
          exact hok.2.2 k (List.mem_cons_of_mem sid hk)
      · refine ⟨?_, ?_, ?_⟩
        · intro k hk
          rw [hreg, Registry_keys_append] at hk
          rcases List.mem_append.mp hk with h2 | h2
          · exact hok.1 k h2
          · have hks : k = sid := by simpa using h2
            rw [hks, ← hsid]
            exact mem_secIds (List.mem_of_find?_eq_some hfind)
        · rw [hreg, Registry_keys_append, List.nodup_append]
          refine ⟨hok.2.1, List.nodup_singleton _, ?_⟩
          intro a ha hb
          rw [List.mem_singleton.mp hb] at ha
          exact hfresh ha
        · intro k hk
          rw [hreg, Registry_keys_append]
          intro hk2
          rcases List.mem_append.mp hk2 with h2 | h2
          · exact hok.2.2 k (List.mem_cons_of_mem sid hk) h2
          · have hks : k = sid := by simpa using h2
            rw [List.nodup_cons] at hnd
            exact hnd.1 (hks ▸ hk)
    have hnd2 : todo.Nodup := by
      rw [List.nodup_cons] at hnd
      exact hnd.2
    have hrec := ih (pass2Step env dir sections st sid) hnd2 hok2
    refine ⟨?_, ?_⟩
    · rw [List.scanl_cons, List.singleton_append, List.chain'_cons']
      constructor
      · intro y hy
        rw [scanl_head, Option.mem_some_iff] at hy
        subst hy
        rcases hstep with hreg | ⟨s, v, _, _, hreg, _⟩
        · exact ⟨[], by rw [hreg, List.append_nil]⟩
        · exact ⟨[(sid, v)], hreg⟩
      · exact hrec.1
    · intro st2 hst2
      rw [List.scanl_cons, List.singleton_append, List.mem_cons] at hst2
      rcases hst2 with h | h
      · subst h
        exact ⟨hok.2.1, hok.1⟩
      · exact hrec.2 st2 h

/-- The state the first pass of processChapter starts from. -/
def pass1Init (ordered : List RSection) : PassState :=
  ⟨GenState.init, ⟨ordered.length, 0, 0, 0, 0⟩, []⟩

/-- The state the first pass of processChapter ends in. -/
def pass1Final (env : GenEnv) (dir : String) (sections ordered : List RSection) :
    PassState :=
  List.foldl (pass1Step env dir sections) (pass1Init ordered) ordered

/-- The state the second pass of processChapter starts from. -/
def pass2Init (env : GenEnv) (dir : String) (sections ordered : List RSection) :
    Pass2State :=
  ⟨(pass1Final env dir sections ordered).gen,
   (pass1Final env dir sections ordered).results,
   (pass1Final env dir sections ordered).needsRegen⟩

theorem chapterRegTrace_error (env : GenEnv) (sections : List RSection) (dir : String)
    (e : String) (herr : buildDependencyOrder sections = .error e) :
    chapterRegTrace env sections dir = [] := by
  unfold chapterRegTrace
  rw [herr]

theorem chapterRegTrace_eq (env : GenEnv) (sections : List RSection) (dir : String)
    (ordered : List RSection) (hok : buildDependencyOrder sections = .ok ordered) :
    chapterRegTrace env sections dir =
      (List.scanl (pass1Step env dir sections) (pass1Init ordered) ordered).map
        (fun st => st.gen.generatedImages) ++
      (List.scanl (pass2Step env dir sections) (pass2Init env dir sections ordered)
        (pass1Final env dir sections ordered).needsRegen).map
        (fun st => st.gen.generatedImages) := by
  unfold chapterRegTrace pass2Init pass1Final pass1Init
  rw [hok]

/-- C9: throughout a single processChapter run the generated-images
registry is append-only.  Along the trace of registry snapshots every
later registry extends every earlier one by appending entries (so once a
key is set it is never removed, and by the get-persistence conjunct its
value never changes); at every point the key set is without duplicates
and a subset of the section ids; and at the step level a first-pass or
second-pass iteration on a section not yet in the registry either leaves
the registry unchanged or appends exactly that section's key, the former
doing so exactly when generation did not succeed. -/
theorem c9_theorem (env : GenEnv) (sections : List RSection) (dir : String)
    (hnd : (secIds sections).Nodup) :
    (List.Pairwise (fun r1 r2 : Registry => ∃ ext, r2 = r1 ++ ext)
        (chapterRegTrace env sections dir) ∧
      ∀ r ∈ chapterRegTrace env sections dir,
        (Registry.keys r).Nodup ∧ ∀ k ∈ Registry.keys r, k ∈ secIds sections) ∧
    (∀ (r ext : Registry) (k v : String), Registry.get r k = some v →
      Registry.get (r ++ ext) k = some v) ∧
    (∀ (st : PassState) (s : RSection), s.id ∉ Registry.keys st.gen.generatedImages →
      ((pass1Step env dir sections st s).gen.generatedImages
          = st.gen.generatedImages ∨
        ∃ v sk,
          (generateImage env (resolveReferences st.gen.generatedImages s sections)
            (imagesDir dir) false st.gen).1 = GenOutcome.success v sk ∧
          (pass1Step env dir sections st s).gen.generatedImages =
            st.gen.generatedImages ++ [(s.id, v)])) ∧
    (∀ (st : Pass2State) (sid : String), sid ∉ Registry.keys st.gen.generatedImages →
      ((pass2Step env dir sections st sid).gen.generatedImages
          = st.gen.generatedImages ∨
        ∃ v, (pass2Step env dir sections st sid).gen.generatedImages =
          st.gen.generatedImages ++ [(sid, v)])) := by
  have hpersist : ∀ (r ext : Registry) (k v : String), Registry.get r k = some v →
      Registry.get (r ++ ext) k = some v := fun r ext k v h => Registry_get_append h
  have hstep1 : ∀ (st : PassState) (s : RSection),
      s.id ∉ Registry.keys st.gen.generatedImages →
      ((pass1Step env dir sections st s).gen.generatedImages
          = st.gen.generatedImages ∨
        ∃ v sk,
          (generateImage env (resolveReferences st.gen.generatedImages s sections)
            (imagesDir dir) false st.gen).1 = GenOutcome.success v sk ∧
          (pass1Step env dir sections st s).gen.generatedImages =
            st.gen.generatedImages ++ [(s.id, v)]) := by
    intro st s hfresh
    rcases pass1Step_spec env dir sections st s hfresh with ⟨h, _⟩ | ⟨v, hreg, _, sk, hsucc⟩
    · exact Or.inl h
    · exact Or.inr ⟨v, sk, hsucc, hreg⟩
  have hstep2 : ∀ (st : Pass2State) (sid : String),
      sid ∉ Registry.keys st.gen.generatedImages →
      ((pass2Step env dir sections st sid).gen.generatedImages
          = st.gen.generatedImages ∨
        ∃ v, (pass2Step env dir sections st sid).gen.generatedImages =
          st.gen.generatedImages ++ [(sid, v)]) := by
    intro st sid hfresh
    rcases pass2Step_spec env dir sections st sid hfresh with h | ⟨s, v, _, _, hreg, _⟩
    · exact Or.inl h
    · exact Or.inr ⟨v, hreg⟩
  refine ⟨?_, hpersist, hstep1, hstep2⟩
  cases hbo : buildDependencyOrder sections with
  | error e =>
    rw [chapterRegTrace_error env sections dir e hbo]
    exact ⟨List.Pairwise.nil, fun r hr => absurd hr (List.not_mem_nil r)⟩
  | ok ordered =>
    rcases buildDependencyOrder_spec sections hnd with ⟨x, hx, hcyc, herr⟩ |
      ⟨order, hbo2, hperm, htopo⟩
    · rw [hbo] at herr
      cases herr
    · rw [hbo] at hbo2
      injection hbo2 with he
      subst he
      have hpm : List.Perm (secIds ordered) (secIds sections) :=
        List.Perm.map (fun s : RSection => s.id) hperm
      have hndord : (secIds ordered).Nodup := hpm.nodup_iff.mpr hnd
      have hsub : ∀ k ∈ secIds ordered, k ∈ secIds sections :=
        fun k hk => hpm.mem_iff.mp hk
      have hok0 : RegOk1 [] (pass1Init ordered) := by
        refine ⟨?_, ?_, ?_, ?_, ?_⟩
        · intro k hk
          cases hk
        · exact List.nodup_nil
        · intro k hk
          cases hk
        · intro k hk
          cases hk
        · exact List.nodup_nil
      have h1 := pass1_fold_spec env dir sections ordered [] (pass1Init ordered) hndord
        (fun d _ hc => absurd hc (List.not_mem_nil d.id)) hok0
      have hfin1 : RegOk1 ([] ++ secIds ordered) (pass1Final env dir sections ordered) :=
        h1.2.1
      rw [List.nil_append] at hfin1
      have hok20 : RegOk2 sections (pass1Final env dir sections ordered).needsRegen
          (pass2Init env dir sections ordered) := by
        refine ⟨?_, ?_, ?_⟩
        · intro k hk
          exact hsub k (hfin1.1 k hk)
        · exact hfin1.2.1
        · exact hfin1.2.2.2.1
      have h2 := pass2_fold_spec env dir sections
        (pass1Final env dir sections ordered).needsRegen
        (pass2Init env dir sections ordered) hfin1.2.2.2.2 hok20
      rw [chapterRegTrace_eq env sections dir ordered hbo]
      haveI : IsTrans Registry (fun r1 r2 => ∃ ext, r2 = r1 ++ ext) := by
        refine ⟨?_⟩
        rintro a b c ⟨e1, hab⟩ ⟨e2, hbc⟩
        exact ⟨e1 ++ e2, by rw [hbc, hab, List.append_assoc]⟩
      constructor
      · rw [← List.chain'_iff_pairwise]
        apply List.Chain'.append
        · exact (List.chain'_map (fun st : PassState => st.gen.generatedImages)).mpr h1.1
        · exact (List.chain'_map (fun st : Pass2State => st.gen.generatedImages)).mpr h2.1
        · intro x2 hx2 y2 hy2
          rw [List.getLast?_map, scanl_getLast, Option.map_some'] at hx2
          rw [List.head?_map, scanl_head, Option.map_some'] at hy2
          have hx3 : x2 = (pass1Final env dir sections ordered).gen.generatedImages :=
            (Option.mem_some_iff.mp hx2).symm
          have hy3 : y2 = (pass2Init env dir sections ordered).gen.generatedImages :=
            (Option.mem_some_iff.mp hy2).symm
          refine ⟨[], ?_⟩
          rw [hx3, hy3, List.append_nil]
          rfl
      · intro r hr
        rcases List.mem_append.mp hr with hm | hm
        · rcases List.mem_map.mp hm with ⟨st2, hst2, rfl⟩
          have hfacts := h1.2.2 st2 hst2
          refine ⟨hfacts.1, ?_⟩
          intro k hk
          have hk2 := hfacts.2 k hk
          rw [List.nil_append] at hk2
          exact hsub k hk2
        · rcases List.mem_map.mp hm with ⟨st2, hst2, rfl⟩
          exact h2.2 st2 hst2

/-- Witness for c9_theorem at the one-section chapter [exHero] in the
environment envT. -/
theorem c9_witness :
    (secIds [exHero]).Nodup ∧
    ((List.Pairwise (fun r1 r2 : Registry => ∃ ext, r2 = r1 ++ ext)
        (chapterRegTrace envT [exHero] "out") ∧
      ∀ r ∈ chapterRegTrace envT [exHero] "out",
        (Registry.keys r).Nodup ∧ ∀ k ∈ Registry.keys r, k ∈ secIds [exHero]) ∧
    (∀ (r ext : Registry) (k v : String), Registry.get r k = some v →
      Registry.get (r ++ ext) k = some v) ∧
    (∀ (st : PassState) (s : RSection), s.id ∉ Registry.keys st.gen.generatedImages →
      ((pass1Step envT "out" [exHero] st s).gen.generatedImages
          = st.gen.generatedImages ∨
        ∃ v sk,
          (generateImage envT (resolveReferences st.gen.generatedImages s [exHero])
            (imagesDir "out") false st.gen).1 = GenOutcome.success v sk ∧
          (pass1Step envT "out" [exHero] st s).gen.generatedImages =
            st.gen.generatedImages ++ [(s.id, v)])) ∧
    (∀ (st : Pass2State) (sid : String), sid ∉ Registry.keys st.gen.generatedImages →
      ((pass2Step envT "out" [exHero] st sid).gen.generatedImages
          = st.gen.generatedImages ∨
        ∃ v, (pass2Step envT "out" [exHero] st sid).gen.generatedImages =
          st.gen.generatedImages ++ [(sid, v)]))) :=
  ⟨by decide, c9_theorem envT [exHero] "out" (by decide)⟩

end RecGen
